import Mathlib

/-!
SteadyTimer: the time-line timer and its manager.

A shallow embedding of `src/src/TimeLineTimer.h` and `src/src/TimeLineTimer.cpp`;
the clock of `src/src/clock.h` follows in the section on `FastSteadyClock`.

* `std::size_t` is a natural number; every arithmetic result that the C++ code
  stores in a `std::size_t` is reduced modulo `2 ^ 64` (`wrap`).
* `TimeLineTimer::GetCurrentTime()` is an explicit argument: each place where
  the C++ code reads the clock takes the millisecond reading as a parameter.
* A callback is a value of an arbitrary type `κ`; `m_callback == nullptr` is
  `none`.  Invoking a callback appends it to an invocation log, so that the
  log records which callbacks ran, how often and in which order.
* An integer division by zero (undefined behaviour in C++) makes the operation
  return `none`.
-/

namespace cxk

/-! ## Machine integers -/

/-- The value `std::numeric_limits<std::size_t>::max()` on a 64-bit target. -/
def SIZE_MAX : Nat := 2 ^ 64 - 1

/-- Reduction of an arithmetic result to the range of `std::size_t`. -/
def wrap (x : Nat) : Nat := x % 2 ^ 64

/-- Conversion of an `int` argument to `std::size_t`. -/
def toSizeT (x : Int) : Nat := (x % 2 ^ 64).toNat

/-! ## TimeLineTimer -/

/-- The data members of `class TimeLineTimer` (TimeLineTimer.h, lines 42-46). -/
structure TimeLineTimer (κ : Type) where
  repeatCount : Nat
  m_startTime : Nat
  m_endTime : Nat
  m_callback : Option κ
  m_interval : Nat
deriving DecidableEq, Repr

namespace TimeLineTimer

variable {κ : Type}

/-- The default constructor `TimeLineTimer::TimeLineTimer()` (TimeLineTimer.cpp,
lines 11-15): `repeatCount(-1)`, no callback, start time read from the clock. -/
def new (now : Nat) : TimeLineTimer κ :=
  { repeatCount := SIZE_MAX
    m_startTime := now
    m_endTime := 0
    m_callback := none
    m_interval := 0 }

/-- The constructor taking a `TimerCallback&` (TimeLineTimer.cpp, lines 18-27).
The guard evaluates `max() / m_interval` as soon as `repeatCount > 0`; with
`m_interval = 0` that division is undefined and the result is `none`. -/
def newCallback (now interval : Nat) (callback : Option κ) (repeat_ : Nat) :
    Option (TimeLineTimer κ) :=
  if 0 < repeat_ then
    if interval = 0 then none
    else
      let count := if SIZE_MAX / interval < repeat_ then SIZE_MAX / interval else repeat_
      some
        { repeatCount := count
          m_startTime := now
          m_endTime := wrap (now + wrap (interval * count))
          m_callback := callback
          m_interval := interval }
  else
    some
      { repeatCount := repeat_
        m_startTime := now
        m_endTime := wrap (now + wrap (interval * repeat_))
        m_callback := callback
        m_interval := interval }

/-- The templated constructor (TimeLineTimer.h, lines 49-59).  The stored
callback is the wrapper lambda around `f`, so it is never null. -/
def newFunc (now interval : Nat) (f : κ) (repeat_ : Nat) : TimeLineTimer κ :=
  { repeatCount := repeat_
    m_startTime := now
    m_endTime := wrap (now + wrap (interval * repeat_))
    m_callback := some f
    m_interval := interval }

/-- The member `TimeLineTimer::ResetTimer` (TimeLineTimer.h, lines 62-73).  Its
interval parameter is an `int`, converted on assignment to `m_interval`. -/
def ResetTimer (_t : TimeLineTimer κ) (now : Nat) (interval : Int) (f : κ) (repeat_ : Nat) :
    TimeLineTimer κ :=
  { repeatCount := repeat_
    m_startTime := now
    m_endTime := wrap (now + wrap (toSizeT interval * repeat_))
    m_callback := some f
    m_interval := toSizeT interval }

/-- The member `TimeLineTimer::Trigger` (TimeLineTimer.cpp, lines 35-44), on a
timer and the invocation log so far. -/
def Trigger (t : TimeLineTimer κ) (log : List κ) : TimeLineTimer κ × List κ :=
  match t.m_callback with
  | none => (t, log)
  | some f =>
    if t.repeatCount = 0 then (t, log)
    else
      ({ t with
          m_startTime := wrap (t.m_startTime + t.m_interval)
          repeatCount := t.repeatCount - 1 },
        log ++ [f])

/-- The effect of `k` successive `Trigger()` calls. -/
def TriggerN : Nat → TimeLineTimer κ → List κ → TimeLineTimer κ × List κ
  | 0, t, log => (t, log)
  | k + 1, t, log => TriggerN k (t.Trigger log).1 (t.Trigger log).2

end TimeLineTimer

/-! ## TimerManager -/

/-- The insertion `std::multimap::insert`: the new element goes behind every
element whose key is not greater than its own (the upper bound of its key). -/
def multimapInsert {α : Type} (x : Nat × α) : List (Nat × α) → List (Nat × α)
  | [] => [x]
  | y :: ys => if x.1 < y.1 then x :: y :: ys else y :: multimapInsert x ys

/-- The containers of `class TimerManager` (TimeLineTimer.h, lines 93-94):
`m_timers` in iteration order, `m_task_queue` front first. -/
structure TimerManager (κ : Type) where
  m_timers : List (Nat × TimeLineTimer κ)
  m_task_queue : List (Nat × TimeLineTimer κ)
deriving DecidableEq, Repr

namespace TimerManager

variable {κ : Type}

/-- A manager right after construction: no timers, nothing queued. -/
def empty : TimerManager κ :=
  { m_timers := []
    m_task_queue := [] }

/-- The overload `TimerManager::AddTimer(std::size_t, TimerCallback&, std::size_t)`
(TimeLineTimer.cpp, lines 56-61).  `ctorNow` is the clock reading taken by the
timer's constructor, `queueNow` the one stored as the queue entry's key. -/
def AddTimer (m : TimerManager κ) (ctorNow queueNow interval : Nat) (callback : Option κ)
    (repeat_ : Nat) : Option (TimerManager κ) :=
  match TimeLineTimer.newCallback ctorNow interval callback repeat_ with
  | none => none
  | some timer => some { m with m_task_queue := m.m_task_queue ++ [(queueNow, timer)] }

/-- The templated overload of `TimerManager::AddTimer` (TimeLineTimer.h,
lines 100-106). -/
def AddTimerFunc (m : TimerManager κ) (ctorNow queueNow interval : Nat) (f : κ)
    (repeat_ : Nat) : TimerManager κ :=
  { m with
    m_task_queue :=
      m.m_task_queue ++ [(queueNow, TimeLineTimer.newFunc ctorNow interval f repeat_)] }

/-- The `while` loop of `TimerManager::Update` (TimeLineTimer.cpp, lines 72-75):
the queue is emptied front first into the multimap. -/
def drain (timers queue : List (Nat × TimeLineTimer κ)) : List (Nat × TimeLineTimer κ) :=
  queue.foldl (fun acc entry => multimapInsert entry acc) timers

/-- The `for` loop of `TimerManager::Update` (TimeLineTimer.cpp, lines 78-97)
over the entries still to visit; the result is what remains in the multimap
and the invocation log. -/
def scan (currentTime : Nat) :
    List (Nat × TimeLineTimer κ) → List κ → List (Nat × TimeLineTimer κ) × List κ
  | [], log => ([], log)
  | (key, timer) :: rest, log =>
    if timer.m_startTime ≤ currentTime then
      let fired := timer.Trigger log
      if fired.1.repeatCount = 0 then
        scan currentTime rest fired.2
      else
        let r := scan currentTime rest fired.2
        ((key, { fired.1 with m_startTime := wrap (fired.1.m_startTime + fired.1.m_interval) })
          :: r.1, r.2)
    else
      let r := scan currentTime rest log
      ((key, timer) :: r.1, r.2)

/-- The member `TimerManager::Update` (TimeLineTimer.cpp, lines 63-99). -/
def Update (m : TimerManager κ) (currentTime : Nat) (log : List κ) : TimerManager κ × List κ :=
  if m.m_timers.isEmpty && m.m_task_queue.isEmpty then (m, log)
  else
    let r := scan currentTime (drain m.m_timers m.m_task_queue) log
    ({ m_timers := r.1
       m_task_queue := [] }, r.2)

end TimerManager

/-! ## Runs of the manager -/

/-- The manager together with the log of the callbacks invoked so far. -/
structure World (κ : Type) where
  manager : TimerManager κ
  log : List κ
deriving DecidableEq, Repr

/-- One atomic step on the manager: a call of either `AddTimer` overload or of
`Update`, each with the clock readings it takes. -/
inductive Event (κ : Type) where
  | addTimer (ctorNow queueNow interval : Nat) (callback : Option κ) (repeat_ : Nat)
  | addTimerFunc (ctorNow queueNow interval : Nat) (f : κ) (repeat_ : Nat)
  | update (currentTime : Nat)
deriving DecidableEq, Repr

namespace Event

variable {κ : Type}

/-- The callback a submission hands over, when it hands one over. -/
def callback? : Event κ → Option κ
  | addTimer _ _ _ callback _ => callback
  | addTimerFunc _ _ _ f _ => some f
  | update _ => none

/-- The key under which a submission is queued. -/
def key? : Event κ → Option Nat
  | addTimer _ queueNow _ _ _ => some queueNow
  | addTimerFunc _ queueNow _ _ _ => some queueNow
  | update _ => none

/-- The interval argument of a submission. -/
def interval : Event κ → Nat
  | addTimer _ _ interval _ _ => interval
  | addTimerFunc _ _ interval _ _ => interval
  | update _ => 0

/-- The repeat count a submission asks for. -/
def configured : Event κ → Nat
  | addTimer _ _ _ _ repeat_ => repeat_
  | addTimerFunc _ _ _ _ repeat_ => repeat_
  | update _ => 0

/-- The repeat count of the timer a submission queues, as its constructor
leaves it. -/
def stored : Event κ → Nat
  | addTimer ctorNow _ interval callback repeat_ =>
    match TimeLineTimer.newCallback ctorNow interval callback repeat_ with
    | none => 0
    | some timer => timer.repeatCount
  | addTimerFunc ctorNow _ interval f repeat_ =>
    (TimeLineTimer.newFunc ctorNow interval f repeat_).repeatCount
  | update _ => 0

/-- The callback of a submission that hands one over, with the repeat count of
the timer it queues. -/
def submission? (e : Event κ) : Option (κ × Nat) :=
  match e.callback? with
  | none => none
  | some c => some (c, e.stored)

end Event

variable {κ : Type}

/-- The callbacks of the entries of a container, in its order. -/
def callbacks (entries : List (Nat × TimeLineTimer κ)) : List κ :=
  entries.filterMap fun entry => entry.2.m_callback

/-- The sum of the repeat counts of the entries that have a callback. -/
def remaining : List (Nat × TimeLineTimer κ) → Nat
  | [] => 0
  | entry :: rest =>
    (match entry.2.m_callback with
      | none => 0
      | some _ => entry.2.repeatCount) + remaining rest

/-- The effect of one event. -/
def step (w : World κ) : Event κ → Option (World κ)
  | .addTimer ctorNow queueNow interval callback repeat_ =>
    match w.manager.AddTimer ctorNow queueNow interval callback repeat_ with
    | none => none
    | some m => some { w with manager := m }
  | .addTimerFunc ctorNow queueNow interval f repeat_ =>
    some { w with manager := w.manager.AddTimerFunc ctorNow queueNow interval f repeat_ }
  | .update currentTime =>
    some
      { manager := (w.manager.Update currentTime w.log).1
        log := (w.manager.Update currentTime w.log).2 }

/-- The effect of a sequence of events, first event first. -/
def run (w : World κ) : List (Event κ) → Option (World κ)
  | [] => some w
  | e :: es =>
    match step w e with
    | none => none
    | some w' => run w' es

/-- The world of a freshly constructed manager: nothing invoked yet. -/
def World.init : World κ :=
  { manager := TimerManager.empty
    log := [] }

/-- The callbacks of the entries that an event takes out of the queue into the
multimap: the whole queue for an `Update`, nothing for a submission. -/
def taken (w : World κ) : Event κ → List κ
  | .update _ => callbacks w.manager.m_task_queue
  | _ => []

/-- The callbacks of the entries that the `Update` calls of a run take out of
the queue, in the order in which they are taken. -/
def moved (w : World κ) : List (Event κ) → List κ
  | [] => []
  | e :: es =>
    match step w e with
    | none => []
    | some w' => taken w e ++ moved w' es

/-- The submissions of a run that hand over a callback, first one first. -/
def submissions (es : List (Event κ)) : List (κ × Nat) :=
  es.filterMap Event.submission?

/-- The bookkeeping that relates a world to the submissions `S` made so far and
to the callbacks `mv` taken out of the queue so far, when the callbacks of the
submissions are pairwise different so that a callback names its timer. -/
structure Conserved [DecidableEq κ] (S : List (κ × Nat)) (mv : List κ) (w : World κ) :
    Prop where
  queued : ∀ x ∈ w.manager.m_task_queue, ∀ c, x.2.m_callback = some c →
    (c, x.2.repeatCount) ∈ S ∧ c ∉ w.log ∧ c ∉ mv
  live : ∀ x ∈ w.manager.m_timers, ∀ c, x.2.m_callback = some c →
    (c, w.log.count c + x.2.repeatCount) ∈ S ∧ c ∈ mv
  nodup : (callbacks w.manager.m_task_queue ++ callbacks w.manager.m_timers).Nodup
  retired : ∀ p ∈ S, p.1 ∉ callbacks w.manager.m_task_queue →
    p.1 ∉ callbacks w.manager.m_timers → w.log.count p.1 = p.2
  movedNodup : mv.Nodup
  logSub : ∀ c ∈ w.log, c ∈ S.map Prod.fst
  movedSub : ∀ c ∈ mv, c ∈ S.map Prod.fst

/-! ## FastSteadyClock

A shallow embedding of `class FastSteadyClock` (`src/src/clock.h`, the x86-64
variant).  The readings of `base_clock_t::now()` (nanoseconds since the epoch)
and of `rdtsc()` are explicit arguments.  The C++ type `float` is IEEE 754
binary32 with rounding to nearest, ties to even.  A conversion from `float` to
`long` whose value does not fit, and a signed overflow, are undefined in C++ and
make the operation return `none`. -/

/-- A value of the C++ type `float`: a finite value `± mant * 2 ^ exp` (zero when
`mant = 0`), an infinity, or a NaN. -/
inductive F32 where
  | finite (neg : Bool) (mant : Nat) (exp : Int)
  | inf (neg : Bool)
  | nan
deriving DecidableEq, Repr

namespace F32

/-- The position of the leading bit of `n` within `fuel` halvings. -/
def leadingBitAux : Nat → Nat → Nat
  | 0, _ => 0
  | fuel + 1, n => if n < 2 then 0 else leadingBitAux fuel (n / 2) + 1

/-- The position of the leading bit of `n`: the largest `k` with `2 ^ k ≤ n`
(0 for `n = 0`). -/
def leadingBit (n : Nat) : Nat := leadingBitAux n n

/-- Numerator and denominator of `num / (den * 2 ^ e)`. -/
def scaled (num den : Nat) (e : Int) : Nat × Nat :=
  if 0 ≤ e then (num, den * 2 ^ e.toNat) else (num * 2 ^ (-e).toNat, den)

/-- The `float` nearest to the rational `± num / den` (with `den ≠ 0`), ties to
even: 24 significant bits, exponent of the last bit between -149 and 104,
infinity beyond. -/
def round (neg : Bool) (num den : Nat) : F32 :=
  if num = 0 then finite neg 0 0
  else
    let e0 : Int := (leadingBit num : Int) - (leadingBit den : Int) - 23
    let e1 : Int := if (scaled num den e0).1 < (scaled num den e0).2 * 2 ^ 23 then e0 - 1 else e0
    let e : Int := max e1 (-149)
    let q := (scaled num den e).1 / (scaled num den e).2
    let r := (scaled num den e).1 % (scaled num den e).2
    let m := if (scaled num den e).2 < 2 * r ∨ (2 * r = (scaled num den e).2 ∧ q % 2 = 1)
      then q + 1 else q
    if m = 2 ^ 24 then
      (if 104 < e + 1 then inf neg else finite neg (2 ^ 23) (e + 1))
    else if 104 < e then inf neg
    else finite neg m e

/-- The conversion `static_cast<float>` of a `uint64_t`. -/
def ofUInt64 (n : Nat) : F32 := round false n 1

/-- The conversion `static_cast<float>` of a `long`. -/
def ofLong (z : Int) : F32 := round (decide (z < 0)) z.natAbs 1

/-- The integer `± x`. -/
def signed (neg : Bool) (x : Nat) : Int := if neg then -(x : Int) else (x : Int)

/-- The division of two `float` values. -/
def div : F32 → F32 → F32
  | nan, _ => nan
  | _, nan => nan
  | inf _, inf _ => nan
  | inf s, finite t _ _ => inf (xor s t)
  | finite s _ _, inf t => finite (xor s t) 0 0
  | finite s m e, finite t n f =>
    if n = 0 then (if m = 0 then nan else inf (xor s t))
    else round (xor s t) (scaled m n (f - e)).1 (scaled m n (f - e)).2

/-- The comparison `a < b` of two `float` values. -/
def lt : F32 → F32 → Bool
  | nan, _ => false
  | _, nan => false
  | inf s, inf t => s && !t
  | inf s, finite _ _ _ => s
  | finite _ _ _, inf t => !t
  | finite s m e, finite t n f =>
    decide (signed s (m * 2 ^ (e - min e f).toNat) < signed t (n * 2 ^ (f - min e f).toNat))

/-- The function `std::max(a, b)`: `b` when `a < b`, else `a`. -/
def max (a b : F32) : F32 := if lt a b then b else a

/-- The constant `std::numeric_limits<float>::min()`, `2 ^ (-126)`. -/
def FLT_MIN : F32 := finite false (2 ^ 23) (-149)

/-- The constant `1.0f`. -/
def one : F32 := finite false (2 ^ 23) (-23)

/-- The conversion `static_cast<long>` of a `float`: truncation toward zero,
undefined when the result does not fit into a `long`. -/
def toLong : F32 → Option Int
  | finite s m e =>
    if -(2 ^ 63 : Int) ≤ signed s (if 0 ≤ e then m * 2 ^ e.toNat else m / 2 ^ (-e).toNat) ∧
        signed s (if 0 ≤ e then m * 2 ^ e.toNat else m / 2 ^ (-e).toNat) < (2 ^ 63 : Int) then
      some (signed s (if 0 ≤ e then m * 2 ^ e.toNat else m / 2 ^ (-e).toNat))
    else none
  | inf _ => none
  | nan => none

end F32

namespace FastSteadyClock

/-- The members of `struct CheckPoint` (clock.h, lines 177-180): the reading of
the standard clock in nanoseconds and the reading of the cycle counter. -/
structure CheckPoint where
  tp_ : Int
  tsc_ : Nat
deriving DecidableEq, Repr

/-- The members of `struct Data` (clock.h, lines 182-188) that `now` and the
calibration loop use.  `switchIdx_` only ever holds 0 (`false`) or 1 (`true`);
`checkPoint0` and `checkPoint1` are the two elements of `checkPoint_`. -/
structure Data where
  fast_ : Bool
  cycle_ : F32
  checkPoint0 : CheckPoint
  checkPoint1 : CheckPoint
  switchIdx_ : Bool
deriving DecidableEq, Repr

/-- The element `checkPoint_[idx]`. -/
def Data.checkPoint_ (data : Data) (idx : Bool) : CheckPoint :=
  if idx then data.checkPoint1 else data.checkPoint0

/-- The assignment `checkPoint_[idx] = cp`. -/
def Data.setCheckPoint (data : Data) (idx : Bool) (cp : CheckPoint) : Data :=
  if idx then { data with checkPoint1 := cp } else { data with checkPoint0 := cp }

/-- The instance `self()` before any calibration (the default member
initialisers of `struct Data`). -/
def Data.init : Data :=
  { fast_ := false
    cycle_ := F32.one
    checkPoint0 := { tp_ := 0, tsc_ := 0 }
    checkPoint1 := { tp_ := 0, tsc_ := 0 }
    switchIdx_ := false }

/-- The function `FastSteadyClock::now` (clock.h, lines 103-116); the result is
the returned time point in nanoseconds since the epoch.  `baseNow` is the
reading of `base_clock_t::now()`, `tscCurrent` the reading of `rdtsc()`. -/
def now (data : Data) (baseNow : Int) (tscCurrent : Nat) : Option Int :=
  if !data.fast_ then some baseNow
  else
    match (F32.div
        (F32.ofUInt64
          ((tscCurrent + 2 ^ 64 - (data.checkPoint_ data.switchIdx_).tsc_) % 2 ^ 64))
        data.cycle_).toLong with
    | none => none
    | some elapsed =>
      if -(2 ^ 63 : Int) ≤ (data.checkPoint_ data.switchIdx_).tp_ + elapsed ∧
          (data.checkPoint_ data.switchIdx_).tp_ + elapsed < (2 ^ 63 : Int) then
        some ((data.checkPoint_ data.switchIdx_).tp_ + elapsed)
      else none

/-- One pass through the body of the `while (true)` loop of
`FastSteadyClock::ThreadRun` (clock.h, lines 135-173), after the sleep.
`baseNow` is the reading of `base_clock_t::now()`, `tsc` the one of `rdtsc()`. -/
def calibrate (data : Data) (baseNow : Int) (tsc : Nat) : Data :=
  let next_idx := !data.switchIdx_
  let data1 := data.setCheckPoint next_idx { tp_ := baseNow, tsc_ := tsc }
  let current_checkpoint := data1.checkPoint_ next_idx
  let last_checkpoint := data1.checkPoint_ data1.switchIdx_
  if last_checkpoint.tsc_ = 0 then { data1 with switchIdx_ := next_idx }
  else
    let dur := current_checkpoint.tp_ - last_checkpoint.tp_
    let dtsc := (current_checkpoint.tsc_ + 2 ^ 64 - last_checkpoint.tsc_) % 2 ^ 64
    if dur = 0 then { data1 with switchIdx_ := next_idx }
    else
      { data1 with
        cycle_ := F32.max (F32.div (F32.ofUInt64 dtsc) (F32.ofLong dur)) F32.FLT_MIN
        fast_ := true
        switchIdx_ := next_idx }

/-- The effect of a sequence of passes through the calibration loop, given the
two readings each pass takes. -/
def calibrateAll (data : Data) : List (Int × Nat) → Data
  | [] => data
  | sample :: samples => calibrateAll (calibrate data sample.1 sample.2) samples

end FastSteadyClock

end cxk

/-! ## Lemmas on a single timer -/

namespace cxk

variable {κ : Type}

theorem Trigger_of_dead (t : TimeLineTimer κ) (log : List κ)
    (h : t.m_callback = none ∨ t.repeatCount = 0) : t.Trigger log = (t, log) := by
  unfold TimeLineTimer.Trigger
  rcases h with h | h
  · rw [h]
  · cases t.m_callback with
    | none => rfl
    | some f => simp [h]

theorem Trigger_of_live (t : TimeLineTimer κ) (log : List κ) (f : κ)
    (hf : t.m_callback = some f) (hr : t.repeatCount ≠ 0) :
    t.Trigger log =
      ({ t with
          m_startTime := wrap (t.m_startTime + t.m_interval)
          repeatCount := t.repeatCount - 1 },
        log ++ [f]) := by
  unfold TimeLineTimer.Trigger
  rw [hf]
  simp [hr]

theorem TriggerN_of_dead (k : Nat) (t : TimeLineTimer κ) (log : List κ)
    (h : t.m_callback = none ∨ t.repeatCount = 0) : t.TriggerN k log = (t, log) := by
  induction k with
  | zero => rfl
  | succ k ih =>
    unfold TimeLineTimer.TriggerN
    rw [Trigger_of_dead t log h]
    exact ih

theorem TriggerN_log (k : Nat) (t : TimeLineTimer κ) (log : List κ) (f : κ)
    (hf : t.m_callback = some f) :
    (t.TriggerN k log).2 = log ++ List.replicate (min t.repeatCount k) f := by
  induction k generalizing t log with
  | zero => simp [TimeLineTimer.TriggerN]
  | succ k ih =>
    unfold TimeLineTimer.TriggerN
    by_cases hr : t.repeatCount = 0
    · rw [Trigger_of_dead t log (Or.inr hr), ih t log hf, hr]
      simp
    · rw [Trigger_of_live t log f hf hr]
      dsimp only
      rw [ih _ _ (by exact hf)]
      obtain ⟨r, hr'⟩ := Nat.exists_eq_succ_of_ne_zero hr
      simp only [hr', Nat.succ_sub_one, Nat.succ_eq_add_one, Nat.add_min_add_right,
        List.replicate_succ, List.append_assoc, List.singleton_append]

theorem TriggerN_repeatCount (k : Nat) (t : TimeLineTimer κ) (log : List κ) (f : κ)
    (hf : t.m_callback = some f) :
    (t.TriggerN k log).1.repeatCount = t.repeatCount - k := by
  induction k generalizing t log with
  | zero => simp [TimeLineTimer.TriggerN]
  | succ k ih =>
    unfold TimeLineTimer.TriggerN
    by_cases hr : t.repeatCount = 0
    · rw [Trigger_of_dead t log (Or.inr hr), ih t log hf, hr]
      simp
    · rw [Trigger_of_live t log f hf hr]
      dsimp only
      rw [ih _ _ (by exact hf)]
      dsimp only
      omega

theorem newCallback_eq (now interval : Nat) (callback : Option κ) (n : Nat)
    (h : 1 ≤ interval ∨ n = 0) :
    TimeLineTimer.newCallback now interval callback n =
      some
        { repeatCount := min n (SIZE_MAX / interval)
          m_startTime := now
          m_endTime := wrap (now + wrap (interval * min n (SIZE_MAX / interval)))
          m_callback := callback
          m_interval := interval } := by
  unfold TimeLineTimer.newCallback
  by_cases hn : 0 < n
  · have hi : interval ≠ 0 := by omega
    rw [if_pos hn, if_neg hi]
    by_cases hc : SIZE_MAX / interval < n
    · simp only [if_pos hc]
      rw [Nat.min_eq_right (Nat.le_of_lt hc)]
    · simp only [if_neg hc]
      rw [Nat.min_eq_left (Nat.le_of_not_lt hc)]
  · have hn0 : n = 0 := by omega
    subst hn0
    simp

end cxk

/-! ## Claims on a single timer -/

namespace cxk

variable {κ : Type}

theorem le_div_of_mul_le {i n : Nat} (hi : 1 ≤ i) (h : i * n ≤ SIZE_MAX) : n ≤ SIZE_MAX / i := by
  rw [Nat.le_div_iff_mul_le (by omega)]
  rw [Nat.mul_comm]
  exact h

/-- C1 (as amended): `k` successive `Trigger()` calls on a timer built by the
templated constructor with repeat count `n` invoke the callback exactly
`min n k` times.  On a timer built by the constructor taking a `TimerCallback&`
(interval at least 1, or `n = 0`) they invoke it exactly
`min (min n (SIZE_MAX / interval)) k` times, which is `min n k` whenever
`interval * n` does not exceed `SIZE_MAX`.  Once the count is used up a further
`Trigger()` changes nothing. -/
theorem fire_count_of_constructed (now interval n k : Nat) (f : κ) (log : List κ) :
    (((TimeLineTimer.newFunc now interval f n).TriggerN k log).2 =
        log ++ List.replicate (min n k) f ∧
      (n ≤ k → ∀ log2,
        ((TimeLineTimer.newFunc now interval f n).TriggerN k log).1.Trigger log2 =
          (((TimeLineTimer.newFunc now interval f n).TriggerN k log).1, log2))) ∧
    (1 ≤ interval ∨ n = 0 →
      ∃ t, TimeLineTimer.newCallback now interval (some f) n = some t ∧
        (t.TriggerN k log).2 =
          log ++ List.replicate (min (min n (SIZE_MAX / interval)) k) f ∧
        (min n (SIZE_MAX / interval) ≤ k → ∀ log2,
          (t.TriggerN k log).1.Trigger log2 = ((t.TriggerN k log).1, log2)) ∧
        (interval * n ≤ SIZE_MAX →
          (t.TriggerN k log).2 = log ++ List.replicate (min n k) f)) := by
  refine ⟨⟨?_, ?_⟩, ?_⟩
  · exact TriggerN_log k _ log f rfl
  · intro hk log2
    apply Trigger_of_dead
    right
    rw [TriggerN_repeatCount k _ log f rfl]
    show n - k = 0
    omega
  · intro h
    refine ⟨_, newCallback_eq now interval (some f) n h, ?_, ?_, ?_⟩
    · exact TriggerN_log k _ log f rfl
    · intro hk log2
      apply Trigger_of_dead
      right
      rw [TriggerN_repeatCount k _ log f rfl]
      show min n (SIZE_MAX / interval) - k = 0
      omega
    · intro hle
      rw [TriggerN_log k _ log f rfl]
      show log ++ List.replicate (min (min n (SIZE_MAX / interval)) k) f = _
      rcases h with h | h
      · rw [Nat.min_eq_left (le_div_of_mul_le h hle)]
      · subst h
        simp

/-- C1, witness: interval 100, repeat count 3, four `Trigger()` calls. -/
theorem fire_count_of_constructed_witness :
    ((TimeLineTimer.newFunc 5 100 7 3).TriggerN 4 []).2 = [7, 7, 7] ∧
    ∃ t, TimeLineTimer.newCallback 5 100 (some 7) 3 = some t ∧ (t.TriggerN 4 []).2 = [7, 7, 7] := by
  have h := fire_count_of_constructed 5 100 3 4 (7 : Nat) []
  obtain ⟨⟨h1, -⟩, h2⟩ := h
  obtain ⟨t, ht, -, -, h4⟩ := h2 (Or.inl (by decide))
  exact ⟨h1, t, ht, h4 (by decide)⟩

/-- C1, counterexample: the constructor taking a `TimerCallback&` with interval
`2 ^ 63` and repeat count 3 stores the count 1, so two `Trigger()` calls invoke
the callback once and not `min 3 2 = 2` times. -/
theorem fire_count_newCallback_counterexample :
    (TimeLineTimer.newCallback 0 (2 ^ 63) (some 0) 3).map (fun t => (t.TriggerN 2 []).2) =
        some [0] ∧
      ([0] : List Nat) ≠ List.replicate (min 3 2) 0 := by
  decide

/-- C5 (the code at the failing input): with interval 0 and repeat count 2 the
constructor taking a `TimerCallback&` divides by zero, and so does the
`AddTimer` overload built on it, while the templated constructor yields a
timer with interval 0 and repeat count 2. -/
theorem newCallback_zero_interval_fails :
    TimeLineTimer.newCallback 0 0 (some (0 : Nat)) 2 = none ∧
    (TimerManager.empty : TimerManager Nat).AddTimer 0 0 0 (some 0) 2 = none ∧
    (TimeLineTimer.newFunc 0 0 (0 : Nat) 2).m_interval = 0 ∧
    (TimeLineTimer.newFunc 0 0 (0 : Nat) 2).repeatCount = 2 := by
  decide

theorem toSizeT_of_neg {iv : Int} (hneg : iv < 0) (hlo : -(2 ^ 64 : Int) ≤ iv) :
    ((toSizeT iv : Nat) : Int) = iv + 2 ^ 64 := by
  unfold toSizeT
  have h1 : iv % 2 ^ 64 = (iv + 2 ^ 64) % 2 ^ 64 := by
    rw [Int.add_emod_self]
  have h2 : (iv + 2 ^ 64) % 2 ^ 64 = iv + 2 ^ 64 :=
    Int.emod_eq_of_lt (by omega) (by omega)
  rw [h1, h2]
  exact Int.toNat_of_nonneg (by omega)

/-- C6 (as amended): after `ResetTimer(interval2, callback2, n2)` on a timer in
any state the interval is `interval2` when `interval2` is not negative and
`2 ^ 64 + interval2` when it is negative (the `int` argument converted to
`std::size_t`), the repeat count is `n2` and the start time is the current
time; `k` further `Trigger()` calls append exactly `min n2 k` invocations of
`callback2` to the log and none of any other callback. -/
theorem ResetTimer_replaces [DecidableEq κ] (t : TimeLineTimer κ) (now : Nat) (interval2 : Int)
    (callback2 : κ) (n2 k : Nat) (log : List κ) :
    (t.ResetTimer now interval2 callback2 n2).m_interval = toSizeT interval2 ∧
    (0 ≤ interval2 → interval2 < 2 ^ 64 →
      ((t.ResetTimer now interval2 callback2 n2).m_interval : Int) = interval2) ∧
    (interval2 < 0 → -(2 ^ 64 : Int) ≤ interval2 →
      ((t.ResetTimer now interval2 callback2 n2).m_interval : Int) = interval2 + 2 ^ 64) ∧
    (t.ResetTimer now interval2 callback2 n2).repeatCount = n2 ∧
    (t.ResetTimer now interval2 callback2 n2).m_startTime = now ∧
    ((t.ResetTimer now interval2 callback2 n2).TriggerN k log).2 =
      log ++ List.replicate (min n2 k) callback2 ∧
    (((t.ResetTimer now interval2 callback2 n2).TriggerN k log).2.count callback2 =
      log.count callback2 + min n2 k) ∧
    ∀ g, g ≠ callback2 →
      ((t.ResetTimer now interval2 callback2 n2).TriggerN k log).2.count g = log.count g := by
  have hlog := TriggerN_log k (t.ResetTimer now interval2 callback2 n2) log callback2 rfl
  refine ⟨rfl, ?_, ?_, rfl, rfl, hlog, ?_, ?_⟩
  · intro h0 h1
    show ((toSizeT interval2 : Nat) : Int) = interval2
    unfold toSizeT
    rw [Int.emod_eq_of_lt h0 h1]
    exact Int.toNat_of_nonneg h0
  · intro hneg hlo
    exact toSizeT_of_neg hneg hlo
  · rw [hlog]
    show (log ++ List.replicate (min n2 k) callback2).count callback2 = _
    rw [List.count_append, List.count_replicate_self]
  · intro g hg
    rw [hlog]
    show (log ++ List.replicate (min n2 k) callback2).count g = _
    rw [List.count_append, List.count_replicate]
    simp [Ne.symm hg]

/-- C6, witness: a timer that fired once of two times is reset with interval 200,
callback 2 and repeat count 1 and then triggered twice; and a reset with
interval -5 stores `2 ^ 64 - 5`. -/
theorem ResetTimer_replaces_witness :
    ((((TimeLineTimer.newFunc 0 100 (1 : Nat) 2).Trigger []).1.ResetTimer 7 200 2 1).m_interval
        = 200 ∧
      ((((TimeLineTimer.newFunc 0 100 (1 : Nat) 2).Trigger []).1.ResetTimer 7 200 2 1).TriggerN
        2 [1]).2 = [1, 2]) ∧
    (((TimeLineTimer.new 0 : TimeLineTimer Nat).ResetTimer 7 (-5) 2 1).m_interval : Int) =
      -5 + 2 ^ 64 := by
  have h := ResetTimer_replaces ((TimeLineTimer.newFunc 0 100 (1 : Nat) 2).Trigger []).1 7 200 2
    1 2 [1]
  obtain ⟨-, h2, -, -, -, h6, -, -⟩ := h
  have g := ResetTimer_replaces (TimeLineTimer.new 0 : TimeLineTimer Nat) 7 (-5) 2 1 2 [1]
  obtain ⟨-, -, g3, -⟩ := g
  refine ⟨⟨?_, h6⟩, g3 (by decide) (by decide)⟩
  have h2' := h2 (by decide) (by decide)
  exact_mod_cast h2'

/-- C6, counterexample: `ResetTimer(-1, callback2, 1)` stores the interval
`2 ^ 64 - 1`, which is not the argument -1. -/
theorem ResetTimer_negative_interval_counterexample :
    ((TimeLineTimer.new 0 : TimeLineTimer Nat).ResetTimer 0 (-1) 7 1).m_interval =
        18446744073709551615 ∧
      ((((TimeLineTimer.new 0 : TimeLineTimer Nat).ResetTimer 0 (-1) 7 1).m_interval : Nat) :
        Int) ≠ -1 := by
  decide

/-- C7: `Trigger()` on a timer without callback or with repeat count 0 leaves
the timer (interval, repeat count, start time, end time) and the log as they
are, and so does any number of `Trigger()` calls on a default-constructed
timer. -/
theorem Trigger_dead_noop (t : TimeLineTimer κ) (log : List κ) (k now : Nat)
    (h : t.m_callback = none ∨ t.repeatCount = 0) :
    t.Trigger log = (t, log) ∧
    t.TriggerN k log = (t, log) ∧
    (TimeLineTimer.new now : TimeLineTimer κ).TriggerN k log = (TimeLineTimer.new now, log) :=
  ⟨Trigger_of_dead t log h, TriggerN_of_dead k t log h,
    TriggerN_of_dead k _ log (Or.inl rfl)⟩

/-- C7, witness: a timer with a callback and repeat count 0. -/
theorem Trigger_dead_noop_witness :
    (TimeLineTimer.newFunc 10 100 (7 : Nat) 0).Trigger [1, 2] =
        (TimeLineTimer.newFunc 10 100 7 0, [1, 2]) ∧
      (TimeLineTimer.new 10 : TimeLineTimer Nat).TriggerN 5 [1, 2] =
        (TimeLineTimer.new 10, [1, 2]) :=
  ⟨(Trigger_dead_noop (TimeLineTimer.newFunc 10 100 (7 : Nat) 0) [1, 2] 5 10 (Or.inr rfl)).1,
    (Trigger_dead_noop (TimeLineTimer.newFunc 10 100 (7 : Nat) 0) [1, 2] 5 10 (Or.inr rfl)).2.2⟩


end cxk

/-! ## Lemmas on `Update` -/

namespace cxk

variable {κ : Type}

theorem Trigger_fst (t : TimeLineTimer κ) (log : List κ) :
    (t.Trigger log).1 = (t.Trigger []).1 := by
  unfold TimeLineTimer.Trigger
  cases t.m_callback with
  | none => rfl
  | some f =>
    by_cases hr : t.repeatCount = 0
    · simp [hr]
    · simp [hr]

theorem Trigger_snd (t : TimeLineTimer κ) (log : List κ) :
    (t.Trigger log).2 =
      log ++ (if t.repeatCount ≠ 0 then t.m_callback.toList else []) := by
  unfold TimeLineTimer.Trigger
  cases t.m_callback with
  | none => simp
  | some f =>
    by_cases hr : t.repeatCount = 0
    · simp [hr]
    · simp [hr]

theorem Trigger_callback (t : TimeLineTimer κ) (log : List κ) :
    (t.Trigger log).1.m_callback = t.m_callback := by
  unfold TimeLineTimer.Trigger
  cases h : t.m_callback with
  | none => simp [h]
  | some f =>
    by_cases hr : t.repeatCount = 0
    · simp [hr, h]
    · simp [hr, h]

theorem Trigger_interval (t : TimeLineTimer κ) (log : List κ) :
    (t.Trigger log).1.m_interval = t.m_interval := by
  unfold TimeLineTimer.Trigger
  cases h : t.m_callback with
  | none => simp
  | some f =>
    by_cases hr : t.repeatCount = 0
    · simp [hr]
    · simp [hr]

theorem Trigger_repeatCount (t : TimeLineTimer κ) (log : List κ) :
    (t.Trigger log).1.repeatCount =
      t.repeatCount - (if t.repeatCount ≠ 0 then t.m_callback.toList.length else 0) := by
  unfold TimeLineTimer.Trigger
  cases h : t.m_callback with
  | none => simp
  | some f =>
    by_cases hr : t.repeatCount = 0
    · simp [hr]
    · simp [hr]

/-- What the loop of `Update` leaves in the multimap for an entry it keeps. -/
theorem scan_fst (T : Nat) (l : List (Nat × TimeLineTimer κ)) (log : List κ) :
    (TimerManager.scan T l log).1 =
      (l.filter fun e =>
          !decide (e.2.m_startTime ≤ T ∧ (e.2.Trigger []).1.repeatCount = 0)).map
        fun e =>
          if e.2.m_startTime ≤ T then
            (e.1,
              { (e.2.Trigger []).1 with
                m_startTime :=
                  wrap ((e.2.Trigger []).1.m_startTime + (e.2.Trigger []).1.m_interval) })
          else e := by
  induction l generalizing log with
  | nil => rfl
  | cons e rest ih =>
    obtain ⟨key, timer⟩ := e
    unfold TimerManager.scan
    by_cases hd : timer.m_startTime ≤ T
    · by_cases hr : (timer.Trigger []).1.repeatCount = 0
      · have hr2 : (timer.Trigger log).1.repeatCount = 0 := by rw [Trigger_fst]; exact hr
        simp only [hd, hr2, if_true, ih]
        simp [List.filter_cons, hd, hr]
      · have hr2 : ¬ (timer.Trigger log).1.repeatCount = 0 := by rw [Trigger_fst]; exact hr
        simp only [hd, hr2, if_true, if_false, ih]
        simp [List.filter_cons, hd, hr, Trigger_fst timer log]
    · simp only [hd, if_false, ih]
      simp [List.filter_cons, hd]

/-- The callbacks the loop of `Update` invokes, in order. -/
theorem scan_snd (T : Nat) (l : List (Nat × TimeLineTimer κ)) (log : List κ) :
    (TimerManager.scan T l log).2 =
      log ++ callbacks
        (l.filter fun e => decide (e.2.m_startTime ≤ T ∧ e.2.repeatCount ≠ 0)) := by
  induction l generalizing log with
  | nil => simp [TimerManager.scan, callbacks]
  | cons e rest ih =>
    obtain ⟨key, timer⟩ := e
    unfold TimerManager.scan
    by_cases hd : timer.m_startTime ≤ T
    · have key1 : ∀ (P : Prop) [Decidable P],
          (if P then TimerManager.scan T rest (timer.Trigger log).2
            else
              ((key, { (timer.Trigger log).1 with
                  m_startTime :=
                    wrap ((timer.Trigger log).1.m_startTime + (timer.Trigger log).1.m_interval) })
                :: (TimerManager.scan T rest (timer.Trigger log).2).1,
               (TimerManager.scan T rest (timer.Trigger log).2).2)).2 =
            (TimerManager.scan T rest (timer.Trigger log).2).2 := by
        intro P _
        by_cases hp : P
        · simp [hp]
        · simp [hp]
      simp only [hd, if_true]
      rw [key1, ih, Trigger_snd]
      by_cases hr : timer.repeatCount = 0
      · simp [List.filter_cons, hd, hr]
      · cases hc : timer.m_callback with
        | none => simp [List.filter_cons, hd, hr, callbacks, hc]
        | some f => simp [List.filter_cons, hd, hr, callbacks, hc]
    · simp only [hd, if_false, ih]
      simp [List.filter_cons, hd]

theorem multimapInsert_perm {α : Type} (x : Nat × α) (l : List (Nat × α)) :
    (multimapInsert x l).Perm (x :: l) := by
  induction l with
  | nil => exact List.Perm.refl _
  | cons y ys ih =>
    unfold multimapInsert
    by_cases h : x.1 < y.1
    · simp [h]
    · simp only [h, if_false]
      exact (List.Perm.cons y ih).trans (List.Perm.swap x y ys)

theorem drain_perm (l q : List (Nat × TimeLineTimer κ)) :
    (TimerManager.drain l q).Perm (l ++ q) := by
  induction q generalizing l with
  | nil => simp [TimerManager.drain]
  | cons x q ih =>
    have h1 : TimerManager.drain l (x :: q) = TimerManager.drain (multimapInsert x l) q := rfl
    rw [h1]
    refine (ih (multimapInsert x l)).trans ?_
    refine ((multimapInsert_perm x l).append_right q).trans ?_
    exact List.perm_middle.symm

theorem Update_eq (m : TimerManager κ) (T : Nat) (log : List κ) :
    m.Update T log =
      ({ m_timers := (TimerManager.scan T (TimerManager.drain m.m_timers m.m_task_queue) log).1
         m_task_queue := [] },
        (TimerManager.scan T (TimerManager.drain m.m_timers m.m_task_queue) log).2) := by
  unfold TimerManager.Update
  by_cases h : (m.m_timers.isEmpty && m.m_task_queue.isEmpty) = true
  · rw [if_pos h]
    simp only [Bool.and_eq_true, List.isEmpty_iff] at h
    obtain ⟨mt, mq⟩ := m
    obtain ⟨h1, h2⟩ := h
    simp only at h1 h2
    subst h1
    subst h2
    rfl
  · rw [if_neg h]

end cxk

/-! ## Claims on one `Update` -/

namespace cxk

variable {κ : Type}

theorem run_append (w : World κ) (es1 es2 : List (Event κ)) :
    run w (es1 ++ es2) =
      match run w es1 with
      | none => none
      | some w1 => run w1 es2 := by
  induction es1 generalizing w with
  | nil => rfl
  | cons e es ih =>
    show (match step w e with
      | none => none
      | some w2 => run w2 (es ++ es2)) = _
    cases hs : step w e with
    | none => simp [run, hs]
    | some w2 => simp [run, hs, ih]

theorem Update_idle (T : Nat) (log : List κ) :
    (TimerManager.empty : TimerManager κ).Update T log = (TimerManager.empty, log) := rfl

theorem run_updates_idle (Ts : List Nat) (log : List κ) :
    run ({ manager := TimerManager.empty, log := log } : World κ) (Ts.map Event.update) =
      some { manager := TimerManager.empty, log := log } := by
  induction Ts with
  | nil => rfl
  | cons T Ts ih => exact ih

/-- C2 (as amended): after `AddTimer(100, callback, 1)` on an empty manager,
by either overload, with the constructor's clock reading `t`, the log is
unchanged; the first `Update` at any clock time `T` with `t ≤ T` (the same
reading included) invokes the callback once and leaves the manager empty; every
further `Update`, at whatever clock time, leaves the log as it is. -/
theorem scenarioA_fires_on_first_update (t tq T : Nat) (f : κ) (log : List κ) (Ts : List Nat)
    (h : t ≤ T) :
    (run { manager := TimerManager.empty, log := log } [Event.addTimerFunc t tq 100 f 1] =
        some { manager := TimerManager.empty.AddTimerFunc t tq 100 f 1, log := log } ∧
      run { manager := TimerManager.empty, log := log }
          ([Event.addTimerFunc t tq 100 f 1, Event.update T] ++ Ts.map Event.update) =
        some { manager := TimerManager.empty, log := log ++ [f] }) ∧
    (run { manager := TimerManager.empty, log := log } [Event.addTimer t tq 100 (some f) 1] =
        some { manager := TimerManager.empty.AddTimerFunc t tq 100 f 1, log := log } ∧
      run { manager := TimerManager.empty, log := log }
          ([Event.addTimer t tq 100 (some f) 1, Event.update T] ++ Ts.map Event.update) =
        some { manager := TimerManager.empty, log := log ++ [f] }) := by
  have hU : (TimerManager.empty.AddTimerFunc t tq 100 f 1).Update T log =
      (TimerManager.empty, log ++ [f]) := by
    simp [TimerManager.Update, TimerManager.AddTimerFunc, TimerManager.empty,
      TimerManager.drain, multimapInsert, TimerManager.scan, TimeLineTimer.newFunc,
      TimeLineTimer.Trigger, h]
  have hA : (TimerManager.empty : TimerManager κ).AddTimer t tq 100 (some f) 1 =
      some (TimerManager.empty.AddTimerFunc t tq 100 f 1) := by
    simp [TimerManager.AddTimer, TimerManager.AddTimerFunc, TimeLineTimer.newCallback,
      TimeLineTimer.newFunc, SIZE_MAX]
  refine ⟨⟨rfl, ?_⟩, ⟨?_, ?_⟩⟩
  · rw [run_append]
    simp only [run, step, hU]
    exact run_updates_idle Ts (log ++ [f])
  · simp only [run, step, hA]
  · rw [run_append]
    simp only [run, step, hA, hU]
    exact run_updates_idle Ts (log ++ [f])

/-- C2, witness: submission at clock time 0, `Update` at the clock times 0, 50,
100 and 250. -/
theorem scenarioA_fires_on_first_update_witness :
    run ({ manager := TimerManager.empty, log := [] } : World Nat)
        [Event.addTimerFunc 0 0 100 7 1, Event.update 0, Event.update 50, Event.update 100,
          Event.update 250] =
      some { manager := TimerManager.empty, log := [7] } :=
  (scenarioA_fires_on_first_update 0 0 0 (7 : Nat) [] [50, 100, 250] (Nat.le_refl 0)).1.2

/-- C2, counterexample: right after `AddTimer(100, callback, 1)` at clock time 0
an `Update` at the same clock time 0 invokes the callback, so that the counter
is 1 and not 0. -/
theorem scenarioA_immediate_update_counterexample :
    (((TimerManager.empty : TimerManager Nat).AddTimerFunc 0 0 100 7 1).Update 0 []).2 = [7] ∧
      ¬ (((TimerManager.empty : TimerManager Nat).AddTimerFunc 0 0 100 7 1).Update 0 []).2.count 7
          = 0 := by
  decide

/-- The loop of `Update` on a due entry with a callback and a repeat count of at
least 2: the start time is advanced by the interval twice, once by `Trigger`
and once by the loop. -/
theorem scan_rearms_twice (T key : Nat) (t : TimeLineTimer κ) (f : κ)
    (rest : List (Nat × TimeLineTimer κ)) (log : List κ)
    (hf : t.m_callback = some f) (hr : 2 ≤ t.repeatCount) (hd : t.m_startTime ≤ T) :
    (TimerManager.scan T ((key, t) :: rest) log).1 =
      (key,
        { t with
          repeatCount := t.repeatCount - 1
          m_startTime := wrap (wrap (t.m_startTime + t.m_interval) + t.m_interval) }) ::
        (TimerManager.scan T rest (log ++ [f])).1 := by
  have hne : t.repeatCount ≠ 0 := by omega
  rw [TimerManager.scan]
  rw [Trigger_of_live t log f hf hne]
  have h1 : ¬ t.repeatCount - 1 = 0 := by omega
  simp [hd, h1]

/-- C3 (the code at the failing input): a timer in the multimap with a
callback, repeat count 2, interval 100 and start time 0 is, after one `Update`
at clock time 0, still in the multimap with repeat count 1 and start time 200,
whereas one `Trigger()` alone advances the start time to 100. -/
theorem Update_advances_start_twice :
    (({ m_timers := [(0, TimeLineTimer.newFunc 0 100 7 2)]
        m_task_queue := [] } : TimerManager Nat).Update 0 []) =
      ({ m_timers :=
          [(0, { repeatCount := 1
                 m_startTime := 200
                 m_endTime := 200
                 m_callback := some 7
                 m_interval := 100 })]
         m_task_queue := [] }, [7]) ∧
    ((TimeLineTimer.newFunc 0 100 (7 : Nat) 2).Trigger []).1.m_startTime = 100 := by
  decide

/-- C9: an `Update` at clock time `T` first moves the whole queue into the
multimap, then invokes, in the multimap's order, the callback of exactly the
entries with start time at most `T`, a callback and a non-zero repeat count,
once each; the entries it removes are exactly those with start time at most `T`
whose repeat count is 0 after `Trigger`; the remaining entries keep their order,
key, callback and interval, and those with start time above `T` are unchanged;
the queue is empty afterwards. -/
theorem Update_effect (m : TimerManager κ) (T : Nat) (log : List κ) :
    (TimerManager.drain m.m_timers m.m_task_queue).Perm (m.m_timers ++ m.m_task_queue) ∧
    (m.Update T log).1.m_task_queue = [] ∧
    (m.Update T log).2 =
      log ++ callbacks
        ((TimerManager.drain m.m_timers m.m_task_queue).filter fun e =>
          decide (e.2.m_startTime ≤ T ∧ e.2.repeatCount ≠ 0)) ∧
    ∃ f : Nat × TimeLineTimer κ → Nat × TimeLineTimer κ,
      (m.Update T log).1.m_timers =
        ((TimerManager.drain m.m_timers m.m_task_queue).filter fun e =>
          !decide (e.2.m_startTime ≤ T ∧ (e.2.Trigger []).1.repeatCount = 0)).map f ∧
      ∀ e, (T < e.2.m_startTime → f e = e) ∧ (f e).1 = e.1 ∧
        (f e).2.m_callback = e.2.m_callback ∧ (f e).2.m_interval = e.2.m_interval := by
  refine ⟨drain_perm _ _, ?_, ?_, ?_⟩
  · rw [Update_eq]
  · rw [Update_eq]
    exact scan_snd T _ log
  · refine ⟨fun e =>
        if e.2.m_startTime ≤ T then
          (e.1,
            { (e.2.Trigger []).1 with
              m_startTime :=
                wrap ((e.2.Trigger []).1.m_startTime + (e.2.Trigger []).1.m_interval) })
        else e, ?_, ?_⟩
    · rw [Update_eq]
      exact scan_fst T _ log
    · intro e
      by_cases hd : e.2.m_startTime ≤ T
      · refine ⟨fun hlt => absurd hd (by omega), ?_, ?_, ?_⟩
        · simp [hd]
        · simp [hd, Trigger_callback]
        · simp [hd, Trigger_interval]
      · simp [hd]

end cxk

/-! ## Order of invocation within one `Update` -/

namespace cxk

variable {κ : Type}

theorem filterMap_cons_toList {α β : Type} (g : α → Option β) (a : α) (l : List α) :
    (a :: l).filterMap g = (g a).toList ++ l.filterMap g := by
  rw [List.filterMap_cons]
  cases g a with
  | none => rfl
  | some b => rfl

theorem pair_sublist_or {α : Type} {a b : α} {d : List α} (ha : a ∈ d) (hb : b ∈ d)
    (hab : a ≠ b) : List.Sublist [a, b] d ∨ List.Sublist [b, a] d := by
  induction d with
  | nil => cases ha
  | cons x d ih =>
    by_cases hxa : x = a
    · subst hxa
      left
      have hb2 : b ∈ d := by
        rcases List.mem_cons.mp hb with h | h
        · exact absurd h.symm hab
        · exact h
      exact List.Sublist.cons₂ _ (List.singleton_sublist.mpr hb2)
    · by_cases hxb : x = b
      · subst hxb
        right
        have ha2 : a ∈ d := by
          rcases List.mem_cons.mp ha with h | h
          · exact absurd h hab
          · exact h
        exact List.Sublist.cons₂ _ (List.singleton_sublist.mpr ha2)
      · have ha2 : a ∈ d := by
          rcases List.mem_cons.mp ha with h | h
          · exact absurd h.symm hxa
          · exact h
        have hb2 : b ∈ d := by
          rcases List.mem_cons.mp hb with h | h
          · exact absurd h.symm hxb
          · exact h
        rcases ih ha2 hb2 with h | h
        · exact Or.inl (List.Sublist.cons _ h)
        · exact Or.inr (List.Sublist.cons _ h)

theorem pair_sublist_cons {α : Type} {a b x : α} {S : List α} (h : List.Sublist [a, b] (x :: S)) :
    List.Sublist [a, b] S ∨ (a = x ∧ b ∈ S) := by
  rcases List.sublist_cons_iff.mp h with h1 | ⟨r, hr, hs⟩
  · exact Or.inl h1
  · right
    injection hr with h2 h3
    subst h3
    exact ⟨h2, List.singleton_sublist.mp hs⟩

theorem pair_sublist_asymm {α : Type} {a b : α} {S : List α} (hS : S.Nodup)
    (h1 : List.Sublist [a, b] S) (h2 : List.Sublist [b, a] S) : False := by
  induction S with
  | nil => cases h1
  | cons x S ih =>
    have hx : x ∉ S := (List.nodup_cons.mp hS).1
    have hS2 : S.Nodup := (List.nodup_cons.mp hS).2
    rcases pair_sublist_cons h1 with p | ⟨pa, pb⟩
    · rcases pair_sublist_cons h2 with q | ⟨qb, qa⟩
      · exact ih hS2 p q
      · have : b ∈ S := (List.singleton_sublist.mp ((List.sublist_cons_self a [b]).trans p))
        exact hx (qb ▸ this)
    · rcases pair_sublist_cons h2 with q | ⟨qb, qa⟩
      · have hm : a ∈ S := by
          have h3 : List.Sublist [a] [b, a] := List.Sublist.cons _ (List.Sublist.refl _)
          exact List.singleton_sublist.mp (h3.trans q)
        exact hx (pa ▸ hm)
      · exact hx (pa ▸ qa)

theorem multimapInsert_of_le {α : Type} (x : Nat × α) (l : List (Nat × α))
    (h : ∀ y ∈ l, y.1 ≤ x.1) : multimapInsert x l = l ++ [x] := by
  induction l with
  | nil => rfl
  | cons y ys ih =>
    unfold multimapInsert
    have hy : ¬ x.1 < y.1 := Nat.not_lt.mpr (h y (List.mem_cons_self _ _))
    rw [if_neg hy, ih (fun z hz => h z (List.mem_cons_of_mem _ hz))]
    rfl

theorem drain_of_sorted (l q : List (Nat × TimeLineTimer κ))
    (h : ((l ++ q).map Prod.fst).Pairwise (· ≤ ·)) : TimerManager.drain l q = l ++ q := by
  induction q generalizing l with
  | nil => simp [TimerManager.drain]
  | cons x q ih =>
    have h1 : TimerManager.drain l (x :: q) = TimerManager.drain (multimapInsert x l) q := rfl
    have hle : ∀ y ∈ l, y.1 ≤ x.1 := by
      intro y hy
      rw [List.map_append, List.pairwise_append] at h
      exact h.2.2 y.1 (List.mem_map_of_mem _ hy) x.1 (List.mem_map_of_mem _ (List.mem_cons_self _ _))
    rw [h1, multimapInsert_of_le x l hle, ih (l ++ [x]) (by simpa using h)]
    simp

theorem scan_keys_sublist (T : Nat) (l : List (Nat × TimeLineTimer κ)) (log : List κ) :
    ((TimerManager.scan T l log).1.map Prod.fst).Sublist (l.map Prod.fst) := by
  rw [scan_fst, List.map_map]
  have h : ∀ l2 : List (Nat × TimeLineTimer κ),
      l2.map (Prod.fst ∘ fun e =>
          if e.2.m_startTime ≤ T then
            (e.1,
              { (e.2.Trigger []).1 with
                m_startTime :=
                  wrap ((e.2.Trigger []).1.m_startTime + (e.2.Trigger []).1.m_interval) })
          else e) = l2.map Prod.fst := by
    intro l2
    apply List.map_congr_left
    intro e _
    by_cases hd : e.2.m_startTime ≤ T
    · simp [hd]
    · simp [hd]
  rw [h]
  exact (List.filter_sublist l).map Prod.fst

theorem scan_callbacks (T : Nat) (l : List (Nat × TimeLineTimer κ)) (log : List κ) :
    callbacks (TimerManager.scan T l log).1 =
      callbacks (l.filter fun e =>
          !decide (e.2.m_startTime ≤ T ∧ (e.2.Trigger []).1.repeatCount = 0)) := by
  rw [scan_fst]
  unfold callbacks
  rw [List.filterMap_map]
  apply List.filterMap_congr
  intro e _
  by_cases hd : e.2.m_startTime ≤ T
  · simp [hd, Trigger_callback]
  · simp [hd]

theorem scan_callbacks_sublist (T : Nat) (l : List (Nat × TimeLineTimer κ)) (log : List κ) :
    (callbacks (TimerManager.scan T l log).1).Sublist (callbacks l) := by
  rw [scan_callbacks]
  exact (List.filter_sublist l).filterMap _

theorem newCallback_fields {now interval n : Nat} {callback : Option κ} {t : TimeLineTimer κ}
    (h : TimeLineTimer.newCallback now interval callback n = some t) :
    t.m_callback = callback ∧ t.m_interval = interval ∧ t.m_startTime = now := by
  unfold TimeLineTimer.newCallback at h
  by_cases hn : 0 < n
  · rw [if_pos hn] at h
    by_cases hi : interval = 0
    · rw [if_pos hi] at h
      cases h
    · rw [if_neg hi] at h
      injection h with h
      subst h
      exact ⟨rfl, rfl, rfl⟩
  · rw [if_neg hn] at h
    injection h with h
    subst h
    exact ⟨rfl, rfl, rfl⟩

/-- The effect of a submission event that succeeds: one entry is appended to
the queue, with the event's key, callback and stored repeat count. -/
theorem step_submit {w w2 : World κ} {e : Event κ} (hs : step w e = some w2)
    (hk : e.key? ≠ none) :
    ∃ k t, e.key? = some k ∧ t.m_callback = e.callback? ∧ t.repeatCount = e.stored ∧
      w2.log = w.log ∧ w2.manager.m_timers = w.manager.m_timers ∧
      w2.manager.m_task_queue = w.manager.m_task_queue ++ [(k, t)] := by
  cases e with
  | addTimer ctorNow queueNow interval callback n =>
    unfold step TimerManager.AddTimer at hs
    cases hc : TimeLineTimer.newCallback ctorNow interval callback n with
    | none => simp [hc] at hs
    | some t =>
      simp only [hc] at hs
      injection hs with hs
      subst hs
      refine ⟨queueNow, t, rfl, (newCallback_fields hc).1, ?_, rfl, rfl, rfl⟩
      simp [Event.stored, hc]
  | addTimerFunc ctorNow queueNow interval f n =>
    unfold step at hs
    injection hs with hs
    subst hs
    exact ⟨queueNow, _, rfl, rfl, rfl, rfl, rfl, rfl⟩
  | update T => exact absurd rfl hk

/-- The effect of an `Update` event. -/
theorem step_update {w w2 : World κ} {T : Nat} (hs : step w (Event.update T) = some w2) :
    w2.manager.m_task_queue = [] ∧
    w2.manager.m_timers =
      (TimerManager.scan T
        (TimerManager.drain w.manager.m_timers w.manager.m_task_queue) w.log).1 ∧
    w2.log =
      (TimerManager.scan T
        (TimerManager.drain w.manager.m_timers w.manager.m_task_queue) w.log).2 := by
  unfold step at hs
  injection hs with hs
  subst hs
  simp only
  rw [Update_eq]
  exact ⟨rfl, rfl, rfl⟩

theorem step_order {w w2 : World κ} {e : Event κ} {K : List Nat} {C : List κ}
    (hs : step w e = some w2)
    (hK : ((w.manager.m_timers ++ w.manager.m_task_queue).map Prod.fst).Sublist K)
    (hC : (callbacks (w.manager.m_timers ++ w.manager.m_task_queue)).Sublist C)
    (hsorted : (K ++ e.key?.toList).Pairwise (· ≤ ·)) :
    ((w2.manager.m_timers ++ w2.manager.m_task_queue).map Prod.fst).Sublist
        (K ++ e.key?.toList) ∧
      (callbacks (w2.manager.m_timers ++ w2.manager.m_task_queue)).Sublist
        (C ++ e.callback?.toList) := by
  by_cases hk : e.key? = none
  · cases e with
    | addTimer _ _ _ _ _ => cases hk
    | addTimerFunc _ _ _ _ _ => cases hk
    | update T =>
      obtain ⟨hq, ht, -⟩ := step_update hs
      have hsort2 : ((w.manager.m_timers ++ w.manager.m_task_queue).map Prod.fst).Pairwise
          (· ≤ ·) := by
        apply List.Pairwise.sublist hK
        simpa [Event.key?] using hsorted
      rw [hq, ht, drain_of_sorted _ _ hsort2]
      simp only [List.append_nil, Event.key?, Event.callback?, Option.toList]
      exact ⟨(scan_keys_sublist T _ _).trans hK, (scan_callbacks_sublist T _ _).trans hC⟩
  · obtain ⟨k, t, hk2, hcb, -, -, hL, hQ⟩ := step_submit hs hk
    rw [hL, hQ, hk2]
    constructor
    · rw [← List.append_assoc, List.map_append]
      exact List.Sublist.append hK (List.Sublist.refl _)
    · rw [← List.append_assoc]
      unfold callbacks at hC ⊢
      rw [List.filterMap_append]
      apply List.Sublist.append hC
      rw [← hcb]
      cases hc : t.m_callback with
      | none => simp [hc]
      | some c => simp [hc]

theorem run_order (es : List (Event κ)) (w w2 : World κ) (K : List Nat) (C : List κ)
    (hrun : run w es = some w2)
    (hK : ((w.manager.m_timers ++ w.manager.m_task_queue).map Prod.fst).Sublist K)
    (hC : (callbacks (w.manager.m_timers ++ w.manager.m_task_queue)).Sublist C)
    (hsorted : (K ++ es.filterMap Event.key?).Pairwise (· ≤ ·)) :
    ((w2.manager.m_timers ++ w2.manager.m_task_queue).map Prod.fst).Sublist
        (K ++ es.filterMap Event.key?) ∧
      (callbacks (w2.manager.m_timers ++ w2.manager.m_task_queue)).Sublist
        (C ++ es.filterMap Event.callback?) := by
  induction es generalizing w K C with
  | nil =>
    injection hrun with hrun
    subst hrun
    simp only [List.filterMap_nil, List.append_nil]
    exact ⟨hK, hC⟩
  | cons e es ih =>
    unfold run at hrun
    cases hs : step w e with
    | none => simp [hs] at hrun
    | some w1 =>
      simp only [hs] at hrun
      rw [filterMap_cons_toList, ← List.append_assoc] at hsorted
      have h1 := step_order hs hK hC (hsorted.sublist (List.sublist_append_left _ _))
      have h2 := ih w1 _ _ hrun h1.1 h1.2 hsorted
      rw [filterMap_cons_toList, filterMap_cons_toList, ← List.append_assoc, ← List.append_assoc]
      exact h2

end cxk

/-! ## Conservation of the repeat counts -/

namespace cxk

variable {κ : Type}

theorem mem_callbacks {l : List (Nat × TimeLineTimer κ)} {c : κ} :
    c ∈ callbacks l ↔ ∃ x ∈ l, x.2.m_callback = some c := by
  unfold callbacks
  rw [List.mem_filterMap]

theorem callbacks_cons (x : Nat × TimeLineTimer κ) (l : List (Nat × TimeLineTimer κ)) :
    callbacks (x :: l) = x.2.m_callback.toList ++ callbacks l :=
  filterMap_cons_toList _ x l

theorem callbacks_append (l1 l2 : List (Nat × TimeLineTimer κ)) :
    callbacks (l1 ++ l2) = callbacks l1 ++ callbacks l2 := by
  unfold callbacks
  rw [List.filterMap_append]

theorem callbacks_filter_sublist (p : Nat × TimeLineTimer κ → Bool)
    (l : List (Nat × TimeLineTimer κ)) : (callbacks (l.filter p)).Sublist (callbacks l) :=
  (List.filter_sublist l).filterMap _

theorem count_callbacks_filter_of_not_mem [DecidableEq κ] (p : Nat × TimeLineTimer κ → Bool)
    (l : List (Nat × TimeLineTimer κ)) (c : κ) (h : c ∉ callbacks l) :
    (callbacks (l.filter p)).count c = 0 := by
  apply List.count_eq_zero_of_not_mem
  intro hc
  exact h ((callbacks_filter_sublist p l).subset hc)

theorem count_callbacks_filter [DecidableEq κ] (p : Nat × TimeLineTimer κ → Bool)
    (l : List (Nat × TimeLineTimer κ)) (hN : (callbacks l).Nodup)
    (x : Nat × TimeLineTimer κ) (c : κ) (hx : x ∈ l) (hc : x.2.m_callback = some c) :
    (callbacks (l.filter p)).count c = if p x then 1 else 0 := by
  induction l with
  | nil => cases hx
  | cons y l ih =>
    rw [callbacks_cons] at hN
    by_cases hy : y.2.m_callback = some c
    · rw [hy] at hN
      have hnot : c ∉ callbacks l := (List.nodup_cons.mp hN).1
      have hxy : x = y := by
        rcases List.mem_cons.mp hx with h | h
        · exact h
        · exact absurd (mem_callbacks.mpr ⟨x, h, hc⟩) hnot
      subst hxy
      have h0 := count_callbacks_filter_of_not_mem p l c hnot
      by_cases hp : p x = true
      · rw [List.filter_cons_of_pos hp, callbacks_cons, hy, if_pos hp]
        simp [h0]
      · rw [List.filter_cons_of_neg hp, if_neg hp]
        exact h0
    · have hx2 : x ∈ l := by
        rcases List.mem_cons.mp hx with h | h
        · subst h
          exact absurd hc hy
        · exact h
      have hN2 : (callbacks l).Nodup := hN.sublist (List.sublist_append_right _ _)
      have h1 := ih hN2 hx2
      by_cases hp : p y = true
      · rw [List.filter_cons_of_pos hp, callbacks_cons, List.count_append, h1]
        have : y.2.m_callback.toList.count c = 0 := by
          apply List.count_eq_zero_of_not_mem
          intro hm
          apply hy
          cases hcb : y.2.m_callback with
          | none => simp [hcb] at hm
          | some c2 =>
            simp [hcb] at hm
            rw [hm]
        omega
      · rw [List.filter_cons_of_neg hp]
        exact h1

theorem snd_unique {S : List (κ × Nat)} (hS : (S.map Prod.fst).Nodup) {c : κ} {n1 n2 : Nat}
    (h1 : (c, n1) ∈ S) (h2 : (c, n2) ∈ S) : n1 = n2 := by
  have h := List.inj_on_of_nodup_map hS h1 h2 rfl
  injection h

/-- The repeat count an entry with a callback has after the loop of `Update`
visited it, together with the invocation it got, is its repeat count before. -/
theorem visit_repeatCount (T : Nat) (x : Nat × TimeLineTimer κ) (c : κ)
    (hc : x.2.m_callback = some c) :
    (if decide (x.2.m_startTime ≤ T ∧ x.2.repeatCount ≠ 0) = true then 1 else 0) +
        (if x.2.m_startTime ≤ T then
            (x.1,
              { (x.2.Trigger []).1 with
                m_startTime :=
                  wrap ((x.2.Trigger []).1.m_startTime + (x.2.Trigger []).1.m_interval) })
          else x).2.repeatCount =
      x.2.repeatCount := by
  by_cases hd : x.2.m_startTime ≤ T
  · by_cases hr : x.2.repeatCount = 0
    · simp [hd, hr, Trigger_repeatCount]
    · simp only [hd, if_true, Trigger_repeatCount, hc]
      simp [hr]
      omega
  · simp [hd]

theorem scan_conserved [DecidableEq κ] (T : Nat) (S : List (κ × Nat))
    (hS : (S.map Prod.fst).Nodup) (D : List (Nat × TimeLineTimer κ)) (log : List κ)
    (hD : ∀ x ∈ D, ∀ c, x.2.m_callback = some c → (c, log.count c + x.2.repeatCount) ∈ S)
    (hN : (callbacks D).Nodup) :
    (∀ x ∈ (TimerManager.scan T D log).1, ∀ c, x.2.m_callback = some c →
      (c, (TimerManager.scan T D log).2.count c + x.2.repeatCount) ∈ S) ∧
    (∀ p ∈ S, p.1 ∈ callbacks D → p.1 ∉ callbacks (TimerManager.scan T D log).1 →
      (TimerManager.scan T D log).2.count p.1 = p.2) ∧
    (∀ c, c ∉ callbacks D → (TimerManager.scan T D log).2.count c = log.count c) := by
  refine ⟨?_, ?_, ?_⟩
  · intro x2 hx2 c hc
    rw [scan_fst] at hx2
    obtain ⟨x, hx, hxv⟩ := List.mem_map.mp hx2
    have hxD : x ∈ D := (List.mem_filter.mp hx).1
    have hcx : x.2.m_callback = some c := by
      rw [← hxv] at hc
      by_cases hd : x.2.m_startTime ≤ T
      · simpa [hd, Trigger_callback] using hc
      · simpa [hd] using hc
    rw [scan_snd, List.count_append, count_callbacks_filter _ D hN x c hxD hcx, ← hxv]
    have hv := visit_repeatCount T x c hcx
    have h0 := hD x hxD c hcx
    rw [Nat.add_assoc, hv]
    exact h0
  · intro p hp hpD hpL
    obtain ⟨c, n⟩ := p
    simp only at hpD hpL ⊢
    obtain ⟨x, hxD, hcx⟩ := mem_callbacks.mp hpD
    rw [scan_callbacks] at hpL
    have hkeep : ¬ (x ∈ D.filter fun e =>
        !decide (e.2.m_startTime ≤ T ∧ (e.2.Trigger []).1.repeatCount = 0)) := by
      intro hmem
      exact hpL (mem_callbacks.mpr ⟨x, hmem, hcx⟩)
    have hret : x.2.m_startTime ≤ T ∧ (x.2.Trigger []).1.repeatCount = 0 := by
      by_contra hcon
      apply hkeep
      rw [List.mem_filter]
      refine ⟨hxD, ?_⟩
      simp only [Bool.not_eq_true', decide_eq_false_iff_not]
      exact hcon
    rw [scan_snd, List.count_append, count_callbacks_filter _ D hN x c hxD hcx]
    have h0 := hD x hxD c hcx
    have hrc : x.2.repeatCount ≤ 1 := by
      have := hret.2
      rw [Trigger_repeatCount, hcx] at this
      by_cases hr : x.2.repeatCount = 0
      · omega
      · simp [hr] at this
        omega
    have hfire : (if decide (x.2.m_startTime ≤ T ∧ x.2.repeatCount ≠ 0) = true then 1 else 0) =
        x.2.repeatCount := by
      by_cases hr : x.2.repeatCount = 0
      · simp [hr]
      · simp [hret.1, hr]
        omega
    rw [hfire]
    exact snd_unique hS h0 hp
  · intro c hc
    rw [scan_snd, List.count_append, count_callbacks_filter_of_not_mem _ D c hc]
    rfl

theorem taken_of_submit (w : World κ) {e : Event κ} (hk : e.key? ≠ none) : taken w e = [] := by
  cases e with
  | addTimer _ _ _ _ _ => rfl
  | addTimerFunc _ _ _ _ _ => rfl
  | update T => exact absurd rfl hk

theorem mem_drain {l q : List (Nat × TimeLineTimer κ)} {x : Nat × TimeLineTimer κ} :
    x ∈ TimerManager.drain l q ↔ x ∈ l ∨ x ∈ q := by
  rw [(drain_perm l q).mem_iff, List.mem_append]

theorem mem_callbacks_drain {l q : List (Nat × TimeLineTimer κ)} {c : κ} :
    c ∈ callbacks (TimerManager.drain l q) ↔ c ∈ callbacks l ∨ c ∈ callbacks q := by
  have h : (callbacks (TimerManager.drain l q)).Perm (callbacks (l ++ q)) :=
    (drain_perm l q).filterMap _
  rw [h.mem_iff, callbacks_append, List.mem_append]

theorem step_conserved_update [DecidableEq κ] {S : List (κ × Nat)} {mv : List κ}
    {w w2 : World κ} {T : Nat} (hI : Conserved S mv w) (hS : (S.map Prod.fst).Nodup)
    (hs : step w (Event.update T) = some w2) :
    Conserved S (mv ++ callbacks w.manager.m_task_queue) w2 := by
  obtain ⟨hQ, hL, hlog⟩ := step_update hs
  have hD : ∀ x ∈ TimerManager.drain w.manager.m_timers w.manager.m_task_queue, ∀ c,
      x.2.m_callback = some c → (c, w.log.count c + x.2.repeatCount) ∈ S := by
    intro x hx c hc
    rcases mem_drain.mp hx with h | h
    · exact (hI.live x h c hc).1
    · obtain ⟨h1, h2, -⟩ := hI.queued x h c hc
      rw [List.count_eq_zero_of_not_mem h2, Nat.zero_add]
      exact h1
  have hN : (callbacks (TimerManager.drain w.manager.m_timers w.manager.m_task_queue)).Nodup := by
    have h : (callbacks (TimerManager.drain w.manager.m_timers w.manager.m_task_queue)).Perm
        (callbacks (w.manager.m_timers ++ w.manager.m_task_queue)) :=
      (drain_perm _ _).filterMap _
    rw [h.nodup_iff, callbacks_append]
    exact List.nodup_append_comm.mp hI.nodup
  obtain ⟨ha, hc1, hc2⟩ := scan_conserved T S hS _ w.log hD hN
  have hsubD : ∀ c, c ∈ callbacks w2.manager.m_timers →
      c ∈ callbacks (TimerManager.drain w.manager.m_timers w.manager.m_task_queue) := by
    intro c hc
    rw [hL] at hc
    exact (scan_callbacks_sublist T _ _).subset hc
  have hDS : ∀ c, c ∈ callbacks (TimerManager.drain w.manager.m_timers w.manager.m_task_queue) →
      c ∈ S.map Prod.fst := by
    intro c hc
    obtain ⟨x, hx, hcx⟩ := mem_callbacks.mp hc
    exact List.mem_map.mpr ⟨_, hD x hx c hcx, rfl⟩
  constructor
  · intro x hx
    rw [hQ] at hx
    cases hx
  · intro x hx c hc
    refine ⟨?_, ?_⟩
    · rw [hlog]
      rw [hL] at hx
      exact ha x hx c hc
    · have hmem := hsubD c (mem_callbacks.mpr ⟨x, hx, hc⟩)
      rcases mem_callbacks_drain.mp hmem with h | h
      · obtain ⟨x0, hx0, hc0⟩ := mem_callbacks.mp h
        exact List.mem_append_left _ (hI.live x0 hx0 c hc0).2
      · exact List.mem_append_right _ h
  · rw [hQ, hL]
    show (callbacks [] ++ _).Nodup
    have : callbacks ([] : List (Nat × TimeLineTimer κ)) = [] := rfl
    rw [this, List.nil_append]
    exact hN.sublist (scan_callbacks_sublist T _ _)
  · intro p hp _ hpL
    rw [hlog]
    rw [hL] at hpL
    by_cases hpD : p.1 ∈ callbacks (TimerManager.drain w.manager.m_timers w.manager.m_task_queue)
    · exact hc1 p hp hpD hpL
    · rw [hc2 p.1 hpD]
      have hnot := fun h => hpD (mem_callbacks_drain.mpr h)
      exact hI.retired p hp (fun h => hnot (Or.inr h)) (fun h => hnot (Or.inl h))
  · rw [List.nodup_append]
    refine ⟨hI.movedNodup, hI.nodup.sublist (List.sublist_append_left _ _), ?_⟩
    intro c hc1 hc2
    obtain ⟨x, hx, hcx⟩ := mem_callbacks.mp hc2
    exact (hI.queued x hx c hcx).2.2 hc1
  · intro c hc
    rw [hlog, scan_snd] at hc
    rcases List.mem_append.mp hc with h | h
    · exact hI.logSub c h
    · exact hDS c ((callbacks_filter_sublist _ _).subset h)
  · intro c hc
    rcases List.mem_append.mp hc with h | h
    · exact hI.movedSub c h
    · exact hDS c (mem_callbacks_drain.mpr (Or.inr h))

theorem step_conserved_submit [DecidableEq κ] {S : List (κ × Nat)} {mv : List κ}
    {w w2 : World κ} {e : Event κ} (hI : Conserved S mv w)
    (hS : ((S ++ e.submission?.toList).map Prod.fst).Nodup)
    (hs : step w e = some w2) (hk : e.key? ≠ none) :
    Conserved (S ++ e.submission?.toList) mv w2 := by
  obtain ⟨k, t, -, hcb, hrc, hlog, hL, hQ⟩ := step_submit hs hk
  have hold : ∀ p ∈ S, p ∈ S ++ e.submission?.toList := fun p hp => List.mem_append_left _ hp
  have holdfst : ∀ c ∈ S.map Prod.fst, c ∈ (S ++ e.submission?.toList).map Prod.fst := by
    intro c hc
    rw [List.map_append]
    exact List.mem_append_left _ hc
  have hnew : ∀ c, t.m_callback = some c →
      (c, t.repeatCount) ∈ S ++ e.submission?.toList ∧ c ∉ S.map Prod.fst := by
    intro c hc
    have hsub : e.submission? = some (c, t.repeatCount) := by
      unfold Event.submission?
      rw [← hcb, hc, hrc]
    rw [hsub] at hS ⊢
    refine ⟨List.mem_append_right _ (by simp), ?_⟩
    rw [List.map_append, List.nodup_append] at hS
    intro hmem
    exact hS.2.2 hmem (by simp)
  have hQcb : callbacks w2.manager.m_task_queue =
      callbacks w.manager.m_task_queue ++ t.m_callback.toList := by
    rw [hQ, callbacks_append, callbacks_cons]
    simp [callbacks]
  have hfresh : ∀ c, t.m_callback = some c →
      c ∉ callbacks w.manager.m_task_queue ∧ c ∉ callbacks w.manager.m_timers := by
    intro c hc
    have hnot := (hnew c hc).2
    constructor
    · intro h
      obtain ⟨x, hx, hcx⟩ := mem_callbacks.mp h
      exact hnot (List.mem_map.mpr ⟨_, (hI.queued x hx c hcx).1, rfl⟩)
    · intro h
      obtain ⟨x, hx, hcx⟩ := mem_callbacks.mp h
      exact hnot (List.mem_map.mpr ⟨_, (hI.live x hx c hcx).1, rfl⟩)
  constructor
  · intro x hx c hc
    rw [hQ] at hx
    rw [hlog]
    rcases List.mem_append.mp hx with h | h
    · obtain ⟨h1, h2, h3⟩ := hI.queued x h c hc
      exact ⟨hold _ h1, h2, h3⟩
    · have hxe : x = (k, t) := by simpa using h
      subst hxe
      obtain ⟨h1, h2⟩ := hnew c hc
      exact ⟨h1, fun hm => h2 (hI.logSub c hm), fun hm => h2 (hI.movedSub c hm)⟩
  · intro x hx c hc
    rw [hL] at hx
    rw [hlog]
    obtain ⟨h1, h2⟩ := hI.live x hx c hc
    exact ⟨hold _ h1, h2⟩
  · rw [hQcb, hL]
    cases hc : t.m_callback with
    | none =>
      simp only [Option.toList, List.append_nil]
      exact hI.nodup
    | some c =>
      obtain ⟨h1, h2⟩ := hfresh c hc
      have hperm : ((callbacks w.manager.m_task_queue ++ [c]) ++ callbacks w.manager.m_timers).Perm
          (c :: (callbacks w.manager.m_task_queue ++ callbacks w.manager.m_timers)) := by
        rw [List.append_assoc]
        exact List.perm_middle
      show ((callbacks w.manager.m_task_queue ++ [c]) ++ callbacks w.manager.m_timers).Nodup
      rw [hperm.nodup_iff, List.nodup_cons]
      refine ⟨?_, hI.nodup⟩
      intro hm
      rcases List.mem_append.mp hm with h | h
      · exact h1 h
      · exact h2 h
  · intro p hp hpQ hpL
    rw [hlog]
    rw [hL] at hpL
    rw [hQcb] at hpQ
    have hpQ1 : p.1 ∉ callbacks w.manager.m_task_queue :=
      fun h => hpQ (List.mem_append_left _ h)
    rcases List.mem_append.mp hp with h | h
    · exact hI.retired p h hpQ1 hpL
    · exfalso
      cases hc : e.callback? with
      | none => simp [Event.submission?, hc] at h
      | some c =>
        have hsub : e.submission? = some (c, e.stored) := by
          unfold Event.submission?
          rw [hc]
        rw [hsub] at h
        have hp2 : p = (c, e.stored) := by simpa using h
        apply hpQ
        rw [hcb, hc, hp2]
        exact List.mem_append_right _ (by simp)
  · exact hI.movedNodup
  · intro c hc
    rw [hlog] at hc
    exact holdfst c (hI.logSub c hc)
  · intro c hc
    exact holdfst c (hI.movedSub c hc)

theorem step_conserved [DecidableEq κ] {S : List (κ × Nat)} {mv : List κ}
    {w w2 : World κ} {e : Event κ} (hI : Conserved S mv w)
    (hS : ((S ++ e.submission?.toList).map Prod.fst).Nodup)
    (hs : step w e = some w2) :
    Conserved (S ++ e.submission?.toList) (mv ++ taken w e) w2 := by
  by_cases hk : e.key? = none
  · cases e with
    | addTimer _ _ _ _ _ => cases hk
    | addTimerFunc _ _ _ _ _ => cases hk
    | update T =>
      have h0 : (Event.update T : Event κ).submission?.toList = [] := rfl
      rw [h0, List.append_nil] at hS ⊢
      exact step_conserved_update hI hS hs
  · rw [taken_of_submit w hk, List.append_nil]
    exact step_conserved_submit hI hS hs hk

theorem run_conserved [DecidableEq κ] (es : List (Event κ)) (S : List (κ × Nat))
    (mv : List κ) (w w2 : World κ) (hI : Conserved S mv w)
    (hS : ((S ++ submissions es).map Prod.fst).Nodup) (hrun : run w es = some w2) :
    Conserved (S ++ submissions es) (mv ++ moved w es) w2 := by
  induction es generalizing S mv w with
  | nil =>
    injection hrun with hrun
    subst hrun
    simpa [submissions, moved] using hI
  | cons e es ih =>
    unfold run at hrun
    cases hs : step w e with
    | none => simp [hs] at hrun
    | some w1 =>
      simp only [hs] at hrun
      have hsub : submissions (e :: es) = e.submission?.toList ++ submissions es :=
        filterMap_cons_toList _ e es
      have hmv : moved w (e :: es) = taken w e ++ moved w1 es := by
        simp [moved, hs]
      rw [hsub, ← List.append_assoc] at hS ⊢
      rw [hmv, ← List.append_assoc]
      have hS1 : ((S ++ e.submission?.toList).map Prod.fst).Nodup := by
        rw [List.map_append] at hS
        exact hS.sublist (List.sublist_append_left _ _)
      exact ih _ _ w1 (step_conserved hI hS1 hs) hS hrun

theorem conserved_init [DecidableEq κ] : Conserved [] [] (World.init : World κ) := by
  constructor
  · intro x hx
    cases hx
  · intro x hx
    cases hx
  · exact List.nodup_nil
  · intro p hp
    cases hp
  · exact List.nodup_nil
  · intro c hc
    cases hc
  · intro c hc
    cases hc

theorem remaining_append (l1 l2 : List (Nat × TimeLineTimer κ)) :
    remaining (l1 ++ l2) = remaining l1 + remaining l2 := by
  induction l1 with
  | nil => simp [remaining]
  | cons x l ih =>
    show _ + remaining (l ++ l2) = (_ + remaining l) + remaining l2
    rw [ih, Nat.add_assoc]

theorem remaining_perm {l1 l2 : List (Nat × TimeLineTimer κ)} (h : l1.Perm l2) :
    remaining l1 = remaining l2 := by
  induction h with
  | nil => rfl
  | cons x _ ih =>
    show _ + remaining _ = _ + remaining _
    rw [ih]
  | swap x y l =>
    show _ + (_ + remaining l) = _ + (_ + remaining l)
    omega
  | trans _ _ ih1 ih2 => rw [ih1, ih2]

/-- The loop of `Update` takes from the repeat counts exactly what it adds to
the log. -/
theorem scan_total (T : Nat) (l : List (Nat × TimeLineTimer κ)) (log : List κ) :
    (TimerManager.scan T l log).2.length + remaining (TimerManager.scan T l log).1 =
      log.length + remaining l := by
  induction l generalizing log with
  | nil => rfl
  | cons e rest ih =>
    obtain ⟨key, timer⟩ := e
    rw [TimerManager.scan]
    by_cases hd : timer.m_startTime ≤ T
    · simp only [hd, if_true]
      by_cases hr : timer.repeatCount = 0
      · rw [Trigger_of_dead timer log (Or.inr hr)]
        simp only [hr, if_true]
        rw [ih]
        cases hc : timer.m_callback with
        | none => simp [remaining, hc]
        | some f => simp [remaining, hc, hr]
      · cases hc : timer.m_callback with
        | none =>
          rw [Trigger_of_dead timer log (Or.inl hc)]
          simp only [hr, if_false]
          simpa [remaining, hc] using ih log
        | some f =>
          rw [Trigger_of_live timer log f hc hr]
          by_cases h1 : timer.repeatCount - 1 = 0
          · simp only [h1, if_true]
            rw [ih]
            simp only [remaining, hc, List.length_append, List.length_singleton]
            omega
          · simp only [h1, if_false]
            simp only [remaining, hc]
            have := ih (log ++ [f])
            simp only [List.length_append, List.length_singleton] at this
            show (TimerManager.scan T rest (log ++ [f])).2.length +
                (timer.repeatCount - 1 + remaining (TimerManager.scan T rest (log ++ [f])).1) =
              log.length + (timer.repeatCount + remaining rest)
            have h2 : 1 ≤ timer.repeatCount := Nat.one_le_iff_ne_zero.mpr hr
            omega
    · simp only [hd, if_false]
      show _ + (_ + remaining _) = _ + (_ + remaining rest)
      have := ih log
      omega

theorem step_total {w w2 : World κ} {e : Event κ} (hs : step w e = some w2) :
    w2.log.length + remaining w2.manager.m_task_queue + remaining w2.manager.m_timers =
      (w.log.length + remaining w.manager.m_task_queue + remaining w.manager.m_timers) +
        (e.submission?.toList.map Prod.snd).sum := by
  by_cases hk : e.key? = none
  · cases e with
    | addTimer _ _ _ _ _ => cases hk
    | addTimerFunc _ _ _ _ _ => cases hk
    | update T =>
      obtain ⟨hQ, hL, hlog⟩ := step_update hs
      rw [hQ, hL, hlog]
      have h1 := scan_total T
        (TimerManager.drain w.manager.m_timers w.manager.m_task_queue) w.log
      have h2 := remaining_perm (drain_perm w.manager.m_timers w.manager.m_task_queue)
      rw [remaining_append] at h2
      have h3 : (Event.update T : Event κ).submission?.toList = [] := rfl
      rw [h3]
      simp only [remaining, List.map_nil, List.sum_nil]
      omega
  · obtain ⟨k, t, -, hcb, hrc, hlog, hL, hQ⟩ := step_submit hs hk
    rw [hQ, hL, hlog, remaining_append]
    have h1 : remaining [(k, t)] = (e.submission?.toList.map Prod.snd).sum := by
      unfold Event.submission?
      rw [← hcb, ← hrc]
      cases hc : t.m_callback with
      | none => simp [remaining, hc]
      | some c => simp [remaining, hc]
    rw [h1]
    omega

theorem run_total (es : List (Event κ)) (w w2 : World κ) (hrun : run w es = some w2) :
    w2.log.length + remaining w2.manager.m_task_queue + remaining w2.manager.m_timers =
      (w.log.length + remaining w.manager.m_task_queue + remaining w.manager.m_timers) +
        ((submissions es).map Prod.snd).sum := by
  induction es generalizing w with
  | nil =>
    injection hrun with hrun
    subst hrun
    simp [submissions]
  | cons e es ih =>
    unfold run at hrun
    cases hs : step w e with
    | none => simp [hs] at hrun
    | some w1 =>
      simp only [hs] at hrun
      have hsub : submissions (e :: es) = e.submission?.toList ++ submissions es :=
        filterMap_cons_toList _ e es
      rw [ih w1 hrun, step_total hs, hsub, List.map_append, List.sum_append]
      omega

theorem submissions_fst (es : List (Event κ)) :
    (submissions es).map Prod.fst = es.filterMap Event.callback? := by
  unfold submissions
  rw [List.map_filterMap]
  apply List.filterMap_congr
  intro e _
  unfold Event.submission?
  cases e.callback? with
  | none => rfl
  | some c => rfl

theorem mem_submissions {es : List (Event κ)} {e : Event κ} {c : κ} (he : e ∈ es)
    (hc : e.callback? = some c) : (c, e.stored) ∈ submissions es := by
  unfold submissions
  rw [List.mem_filterMap]
  refine ⟨e, he, ?_⟩
  unfold Event.submission?
  rw [hc]

theorem sum_of_all_one (l : List Nat) (h : ∀ n ∈ l, n = 1) : l.sum = l.length := by
  induction l with
  | nil => rfl
  | cons n l ih =>
    rw [List.sum_cons, List.length_cons, ih (fun m hm => h m (List.mem_cons_of_mem _ hm)),
      h n (List.mem_cons_self _ _)]
    omega

theorem stored_le_configured (e : Event κ) :
    e.stored ≤ e.configured ∧
      (1 ≤ e.interval → e.interval * e.configured ≤ SIZE_MAX → e.stored = e.configured) := by
  cases e with
  | addTimer ctorNow queueNow interval callback n =>
    show (match TimeLineTimer.newCallback ctorNow interval callback n with
      | none => 0
      | some timer => timer.repeatCount) ≤ n ∧
      (1 ≤ interval → interval * n ≤ SIZE_MAX →
        (match TimeLineTimer.newCallback ctorNow interval callback n with
          | none => 0
          | some timer => timer.repeatCount) = n)
    by_cases h : 1 ≤ interval ∨ n = 0
    · rw [newCallback_eq ctorNow interval callback n h]
      refine ⟨Nat.min_le_left _ _, ?_⟩
      intro hi hle
      exact Nat.min_eq_left (le_div_of_mul_le hi hle)
    · have hi : interval = 0 := by omega
      have hn : 0 < n := by omega
      have hnone : TimeLineTimer.newCallback ctorNow interval callback n = none := by
        unfold TimeLineTimer.newCallback
        rw [if_pos hn, if_pos hi]
      rw [hnone]
      exact ⟨Nat.zero_le _, fun h1 => absurd h1 (by omega)⟩
  | addTimerFunc ctorNow queueNow interval f n => exact ⟨Nat.le_refl _, fun _ _ => rfl⟩
  | update T => exact ⟨Nat.le_refl _, fun _ _ => rfl⟩

end cxk

/-! ## Claims on runs of the manager -/

namespace cxk

variable {κ : Type}

/-- C8: in every state that a sequence of `AddTimer` and `Update` steps reaches
from the empty manager, the number of invocations so far plus the repeat counts
still held in queue and multimap is the sum of the repeat counts the submitted
timers were queued with; when queue and multimap are empty and every timer was
queued with repeat count 1, the number of invocations is the number of
submitted timers.  When the callbacks of the submissions are pairwise different
(a callback names its timer), every submitted timer is in at most one of queue
and multimap (retired when in neither), is taken out of the queue at most once
and only then is in the multimap, is not invoked while queued, satisfies
invocations + repeat count = the repeat count it was queued with while queued
or in the multimap, and invocations = that count once retired; that count never
exceeds the count asked for and equals it when `interval * count` fits. -/
theorem repeat_counts_conserved [DecidableEq κ] (es : List (Event κ)) (w : World κ)
    (hrun : run World.init es = some w) :
    (w.log.length + remaining w.manager.m_task_queue + remaining w.manager.m_timers =
      ((submissions es).map Prod.snd).sum) ∧
    (w.manager.m_task_queue = [] → w.manager.m_timers = [] →
      (∀ e ∈ es, ∀ c, e.callback? = some c → e.stored = 1) →
      w.log.length = (es.filterMap Event.callback?).length) ∧
    ((es.filterMap Event.callback?).Nodup →
      (moved World.init es).Nodup ∧
      ∀ e ∈ es, ∀ c, e.callback? = some c →
        (callbacks w.manager.m_task_queue).count c + (callbacks w.manager.m_timers).count c ≤ 1 ∧
        (moved World.init es).count c ≤ 1 ∧
        (c ∈ callbacks w.manager.m_task_queue → c ∉ moved World.init es ∧ c ∉ w.log) ∧
        (c ∈ callbacks w.manager.m_timers → c ∈ moved World.init es) ∧
        (∀ x ∈ w.manager.m_task_queue ++ w.manager.m_timers, x.2.m_callback = some c →
          w.log.count c + x.2.repeatCount = e.stored) ∧
        (c ∉ callbacks w.manager.m_task_queue → c ∉ callbacks w.manager.m_timers →
          w.log.count c = e.stored) ∧
        w.log.count c ≤ e.stored ∧
        e.stored ≤ e.configured ∧
        (1 ≤ e.interval → e.interval * e.configured ≤ SIZE_MAX → e.stored = e.configured)) := by
  have hT := run_total es World.init w hrun
  have hT0 : w.log.length + remaining w.manager.m_task_queue + remaining w.manager.m_timers =
      ((submissions es).map Prod.snd).sum := by
    rw [hT]
    simp [World.init, TimerManager.empty, remaining]
  refine ⟨hT0, ?_, ?_⟩
  · intro hQ hL hall
    rw [hQ, hL] at hT0
    simp only [remaining, Nat.add_zero] at hT0
    rw [hT0, sum_of_all_one, List.length_map, ← submissions_fst, List.length_map]
    intro n hn
    obtain ⟨p, hp, hpn⟩ := List.mem_map.mp hn
    unfold submissions at hp
    obtain ⟨e, he, hsub⟩ := List.mem_filterMap.mp hp
    unfold Event.submission? at hsub
    cases hc : e.callback? with
    | none => simp [hc] at hsub
    | some c =>
      simp only [hc] at hsub
      injection hsub with hsub
      rw [← hpn, ← hsub]
      exact hall e he c hc
  · intro hN
    have hS : (([] ++ submissions es).map Prod.fst).Nodup := by
      rw [List.nil_append, submissions_fst]
      exact hN
    have hC := run_conserved es [] [] World.init w conserved_init hS hrun
    rw [List.nil_append, List.nil_append] at hC
    rw [List.nil_append] at hS
    refine ⟨hC.movedNodup, ?_⟩
    intro e he c hc
    have hmem := mem_submissions he hc
    have hqueued : ∀ x ∈ w.manager.m_task_queue, x.2.m_callback = some c →
        w.log.count c + x.2.repeatCount = e.stored := by
      intro x hx hcx
      obtain ⟨h1, h2, -⟩ := hC.queued x hx c hcx
      rw [List.count_eq_zero_of_not_mem h2, Nat.zero_add]
      exact snd_unique hS h1 hmem
    have hlive : ∀ x ∈ w.manager.m_timers, x.2.m_callback = some c →
        w.log.count c + x.2.repeatCount = e.stored := by
      intro x hx hcx
      exact snd_unique hS (hC.live x hx c hcx).1 hmem
    have hret := hC.retired (c, e.stored) hmem
    refine ⟨?_, ?_, ?_, ?_, ?_, hret, ?_, (stored_le_configured e).1,
      (stored_le_configured e).2⟩
    · rw [← List.count_append]
      exact List.nodup_iff_count_le_one.mp hC.nodup c
    · exact List.nodup_iff_count_le_one.mp hC.movedNodup c
    · intro hq
      obtain ⟨x, hx, hcx⟩ := mem_callbacks.mp hq
      obtain ⟨-, h2, h3⟩ := hC.queued x hx c hcx
      exact ⟨h3, h2⟩
    · intro hl
      obtain ⟨x, hx, hcx⟩ := mem_callbacks.mp hl
      exact (hC.live x hx c hcx).2
    · intro x hx hcx
      rcases List.mem_append.mp hx with h | h
      · exact hqueued x h hcx
      · exact hlive x h hcx
    · by_cases hq : c ∈ callbacks w.manager.m_task_queue
      · obtain ⟨x, hx, hcx⟩ := mem_callbacks.mp hq
        have := hqueued x hx hcx
        omega
      · by_cases hl : c ∈ callbacks w.manager.m_timers
        · obtain ⟨x, hx, hcx⟩ := mem_callbacks.mp hl
          have := hlive x hx hcx
          omega
        · exact Nat.le_of_eq (hret hq hl)

/-- C8, witness: three timers with repeat count 1, two submitted before the
first `Update` and one after it; all are retired after the second `Update`
and the callbacks were invoked three times in all. -/
theorem repeat_counts_conserved_witness :
    run (World.init : World Nat)
        [Event.addTimerFunc 0 0 100 1 1, Event.addTimerFunc 0 0 100 2 1, Event.update 0,
          Event.addTimer 1 1 100 (some 3) 1, Event.update 1] =
      some { manager := TimerManager.empty, log := [1, 2, 3] } ∧
    ([1, 2, 3] : List Nat).length = 3 := by
  have hrun : run (World.init : World Nat)
      [Event.addTimerFunc 0 0 100 1 1, Event.addTimerFunc 0 0 100 2 1, Event.update 0,
        Event.addTimer 1 1 100 (some 3) 1, Event.update 1] =
      some { manager := TimerManager.empty, log := [1, 2, 3] } := by decide
  refine ⟨hrun, ?_⟩
  refine (repeat_counts_conserved _ _ hrun).2.1 rfl rfl ?_
  intro e he c hc
  simp only [List.mem_cons, List.mem_singleton, List.not_mem_nil, or_false] at he
  rcases he with h | h | h | h | h <;> subst h <;> first | rfl | cases hc

/-- C10: in a run from the empty manager whose submissions are queued under
non-decreasing keys, the callbacks that one `Update` invokes are invoked in the
order of their submissions: the list of its invocations is a sublist of the
list of submitted callbacks; so when the callbacks are pairwise different and
`a` was submitted before `b`, an `Update` that invokes both invokes `a` before
`b`. -/
theorem Update_invokes_in_submission_order (es : List (Event κ)) (w : World κ) (T : Nat)
    (hrun : run World.init es = some w)
    (hkeys : (es.filterMap Event.key?).Pairwise (· ≤ ·)) :
    ∃ d, (w.manager.Update T w.log).2 = w.log ++ d ∧
      d.Sublist (es.filterMap Event.callback?) ∧
      ((es.filterMap Event.callback?).Nodup → ∀ a b,
        List.Sublist [a, b] (es.filterMap Event.callback?) → a ∈ d → b ∈ d →
        List.Sublist [a, b] d) := by
  have hord := run_order es World.init w [] [] hrun (List.Sublist.refl _) (List.Sublist.refl _)
    (by simpa using hkeys)
  rw [List.nil_append, List.nil_append] at hord
  have hsorted : ((w.manager.m_timers ++ w.manager.m_task_queue).map Prod.fst).Pairwise
      (· ≤ ·) := hkeys.sublist hord.1
  have hsub : (callbacks
      ((TimerManager.drain w.manager.m_timers w.manager.m_task_queue).filter fun e =>
        decide (e.2.m_startTime ≤ T ∧ e.2.repeatCount ≠ 0))).Sublist
      (es.filterMap Event.callback?) := by
    refine (callbacks_filter_sublist _ _).trans ?_
    rw [drain_of_sorted _ _ hsorted]
    exact hord.2
  refine ⟨_, (Update_effect w.manager T w.log).2.2.1, hsub, ?_⟩
  intro hN a b hab ha hb
  have hne : a ≠ b := by
    intro h
    subst h
    have h2 : ([a, a] : List κ).Nodup := hN.sublist hab
    simp at h2
  rcases pair_sublist_or ha hb hne with h | h
  · exact h
  · exact absurd (pair_sublist_asymm hN hab (h.trans hsub)) id

/-- C10, witness: timer 1 (interval 10, three repeats) is submitted and fires
at clock time 0, then timer 2 (interval 0, start time 5) is submitted; the
`Update` at clock time 30 takes timer 2 out of the queue and invokes both,
timer 1 (due at 20) before timer 2 (due at 5). -/
theorem Update_invokes_in_submission_order_witness :
    ∃ d, (({ m_timers := [(0, { repeatCount := 2
                                m_startTime := 20
                                m_endTime := 30
                                m_callback := some 1
                                m_interval := 10 })]
             m_task_queue := [(5, TimeLineTimer.newFunc 5 0 2 1)] } :
            TimerManager Nat).Update 30 [1]).2 = [1] ++ d ∧
      List.Sublist [1, 2] d := by
  obtain ⟨d, h1, -, h3⟩ := Update_invokes_in_submission_order
    [Event.addTimerFunc 0 0 10 (1 : Nat) 3, Event.update 0, Event.addTimerFunc 5 5 0 2 1]
    { manager :=
        { m_timers := [(0, { repeatCount := 2
                             m_startTime := 20
                             m_endTime := 30
                             m_callback := some 1
                             m_interval := 10 })]
          m_task_queue := [(5, TimeLineTimer.newFunc 5 0 2 1)] }
      log := [1] }
    30 (by decide) (by decide)
  refine ⟨d, h1, ?_⟩
  have hd : d = [1, 2] := by
    have h4 : (({ m_timers := [(0, { repeatCount := 2
                                     m_startTime := 20
                                     m_endTime := 30
                                     m_callback := some 1
                                     m_interval := 10 })]
                  m_task_queue := [(5, TimeLineTimer.newFunc 5 0 2 1)] } :
                TimerManager Nat).Update 30 [1]).2 = [1] ++ [1, 2] := by decide
    exact List.append_cancel_left (h1.symm.trans h4)
  exact h3 (by decide) 1 2 (by decide) (by rw [hd]; decide) (by rw [hd]; decide)

end cxk

/-! ## Claims on the clock -/

namespace cxk

namespace FastSteadyClock

theorem calibrate_fast (data : Data) (baseNow : Int) (tsc : Nat) (h : data.fast_ = true) :
    (calibrate data baseNow tsc).fast_ = true := by
  obtain ⟨fast, cycle, cp0, cp1, idx⟩ := data
  cases idx <;>
    simp only [calibrate, Data.setCheckPoint, Data.checkPoint_, Bool.not_false, Bool.not_true,
      Bool.false_eq_true, if_true, if_false] <;>
    split_ifs <;> first | rfl | exact h

theorem calibrateAll_fast (data : Data) (samples : List (Int × Nat)) (h : data.fast_ = true) :
    (calibrateAll data samples).fast_ = true := by
  induction samples generalizing data with
  | nil => exact h
  | cons sample samples ih => exact ih _ (calibrate_fast data sample.1 sample.2 h)

/-- C12: one pass through the calibration loop stores the new checkpoint in the
slot that `switchIdx_` does not designate, leaves the designated slot as it is,
and always flips `switchIdx_` to the new slot; when the designated checkpoint
has `tsc_ = 0`, or the new reading of the standard clock equals its `tp_`, the
pass leaves `cycle_` and `fast_` as they are; `fast_`, once true, is true after
every pass and after any number of passes. -/
theorem calibrate_frame (data : Data) (baseNow : Int) (tsc : Nat) :
    (calibrate data baseNow tsc).switchIdx_ = !data.switchIdx_ ∧
    (calibrate data baseNow tsc).checkPoint_ (!data.switchIdx_) =
      { tp_ := baseNow, tsc_ := tsc } ∧
    (calibrate data baseNow tsc).checkPoint_ data.switchIdx_ =
      data.checkPoint_ data.switchIdx_ ∧
    ((data.checkPoint_ data.switchIdx_).tsc_ = 0 ∨
        baseNow - (data.checkPoint_ data.switchIdx_).tp_ = 0 →
      (calibrate data baseNow tsc).cycle_ = data.cycle_ ∧
      (calibrate data baseNow tsc).fast_ = data.fast_) ∧
    (data.fast_ = true → (calibrate data baseNow tsc).fast_ = true) ∧
    (data.fast_ = true → ∀ samples, (calibrateAll data samples).fast_ = true) := by
  refine ⟨?_, ?_, ?_, ?_, calibrate_fast data baseNow tsc,
    fun h samples => calibrateAll_fast data samples h⟩
  · obtain ⟨fast, cycle, cp0, cp1, idx⟩ := data
    cases idx <;>
      simp only [calibrate, Data.setCheckPoint, Data.checkPoint_, Bool.not_false, Bool.not_true,
        Bool.false_eq_true, if_true, if_false] <;>
      split_ifs <;> rfl
  · obtain ⟨fast, cycle, cp0, cp1, idx⟩ := data
    cases idx <;>
      simp only [calibrate, Data.setCheckPoint, Data.checkPoint_, Bool.not_false, Bool.not_true,
        Bool.false_eq_true, if_true, if_false] <;>
      split_ifs <;> rfl
  · obtain ⟨fast, cycle, cp0, cp1, idx⟩ := data
    cases idx <;>
      simp only [calibrate, Data.setCheckPoint, Data.checkPoint_, Bool.not_false, Bool.not_true,
        Bool.false_eq_true, if_true, if_false] <;>
      split_ifs <;> rfl
  · intro h
    obtain ⟨fast, cycle, cp0, cp1, idx⟩ := data
    cases idx <;>
      simp only [calibrate, Data.setCheckPoint, Data.checkPoint_, Bool.not_false, Bool.not_true,
        Bool.false_eq_true, if_true, if_false] at h ⊢ <;>
      split_ifs with h1 h2 <;> first
        | exact ⟨rfl, rfl⟩
        | (rcases h with h | h
           · exact absurd h h1
           · exact absurd h h2)

/-- C12, witness: the first pass on the initial data (designated checkpoint
unset) and a pass whose reading of the standard clock equals the designated
checkpoint's: both only store the checkpoint and flip the index. -/
theorem calibrate_frame_witness :
    calibrate Data.init 20000000 1030000000 =
        { fast_ := false
          cycle_ := F32.one
          checkPoint0 := { tp_ := 0, tsc_ := 0 }
          checkPoint1 := { tp_ := 20000000, tsc_ := 1030000000 }
          switchIdx_ := true } ∧
      (calibrate
          (calibrateAll Data.init [(20000000, 1030000000), (40000000, 1040000000)])
          40000000 1040000500).fast_ = true ∧
      (calibrate
          (calibrateAll Data.init [(20000000, 1030000000), (40000000, 1040000000)])
          40000000 1040000500).cycle_ = F32.finite false (2 ^ 23) (-24) := by
  have h := calibrate_frame
    (calibrateAll Data.init [(20000000, 1030000000), (40000000, 1040000000)])
    40000000 1040000500
  obtain ⟨-, -, -, h4, -, -⟩ := h
  have h5 := h4 (Or.inr (by decide))
  refine ⟨by decide, ?_, ?_⟩
  · rw [h5.2]
    decide
  · rw [h5.1]
    decide

/-- C11 (the code at the failing input): after the passes of the calibration
loop with the readings (20000000 ns, 1030000000 cycles) and (40000000 ns,
1040000000 cycles) the clock is calibrated with `cycle_ = 0.5`, and `now` at
the cycle count 1058000000 returns 76000000 ns; after one more pass with the
readings (60000000 ns, 1060000000 cycles) `now` at the later cycle count
1060000100 returns 60000100 ns, which is less. -/
theorem now_decreases_across_checkpoints :
    (calibrateAll Data.init [(20000000, 1030000000), (40000000, 1040000000)]).fast_ = true ∧
    (calibrateAll Data.init [(20000000, 1030000000), (40000000, 1040000000)]).cycle_ =
      F32.finite false (2 ^ 23) (-24) ∧
    now (calibrateAll Data.init [(20000000, 1030000000), (40000000, 1040000000)])
        58000000 1058000000 = some 76000000 ∧
    now (calibrate (calibrateAll Data.init [(20000000, 1030000000), (40000000, 1040000000)])
          60000000 1060000000)
        60000100 1060000100 = some 60000100 ∧
    (60000100 : Int) < 76000000 := by
  decide

end FastSteadyClock

end cxk
